import Mathlib

/-!
# Verification of the graph-coloring repository

Shallow embedding of `logic/graph.py` (the DIMACS parser) and of
`logic/solver.py` (the ctypes wrapper around the two branch-and-bound
engines), together with spec-modelled versions of the C engines
(`sewell_solve`, `furini_solve`), whose C sources are not part of the
Python tree.

The parser is embedded at the level of the decoded line list: the real
`parse_dimacs` receives `bytes` and first applies
`content.decode(errors="replace").splitlines()`, a total operation; every
claim under study is about the treatment of the resulting lines.
Python string primitives (`strip`, `split`, `int`) are given structural
implementations over `List Char` so that every definition evaluates
inside the kernel.
-/

/- ──────────────────────── Python string primitives ──────────────────────── -/

/-- Python `str.strip()` (whitespace on both ends removed). -/
def pyStrip (cs : List Char) : List Char :=
  (((cs.dropWhile Char.isWhitespace).reverse).dropWhile Char.isWhitespace).reverse

/-- Helper for `pyWords`: accumulate the current word (reversed) while
scanning. -/
def pyWordsAux : List Char → List Char → List (List Char)
  | [], acc => if acc = [] then [] else [acc.reverse]
  | c :: rest, acc =>
    if c.isWhitespace then
      if acc = [] then pyWordsAux rest [] else acc.reverse :: pyWordsAux rest []
    else pyWordsAux rest (c :: acc)

/-- Python `str.split()` with no argument: split on runs of whitespace,
discarding empty fields. -/
def pyWords (cs : List Char) : List (List Char) := pyWordsAux cs []

/-- A nonempty run of decimal digits, as a number. -/
def pyDigits (cs : List Char) : Option Nat :=
  if cs = [] then none
  else if cs.all Char.isDigit then
    some (cs.foldl (fun a c => a * 10 + (c.toNat - 48)) 0)
  else none

/-- Python `int(tok)` on a token produced by `str.split()` (hence
whitespace-free): an optional sign followed by digits; `none` when
`int()` would raise `ValueError`.  (Python additionally allows `_` digit
separators; no claim involves them.) -/
def pyIntTok (cs : List Char) : Option Int :=
  match cs with
  | [] => none
  | '+' :: rest => (pyDigits rest).map Int.ofNat
  | '-' :: rest => (pyDigits rest).map (fun k => -(Int.ofNat k))
  | _ => (pyDigits cs).map Int.ofNat

/-- Python `sorted(s)` for a set of ints represented as the list of its inserted
elements: insertion keeping the list strictly increasing. -/
def insDedup (x : Int) : List Int → List Int
  | [] => [x]
  | y :: ys => if x < y then x :: y :: ys else if x = y then y :: ys else y :: insDedup x ys

/-- The sorted duplicate-free list of the elements of `l`; extensionally
Python's `sorted(set(l))`. -/
def sortedDedup (l : List Int) : List Int := l.foldr insDedup []

/- ──────────────────── logic/graph.py : parse_dimacs ──────────────────── -/

/-- The effect of one input line on the parser state, mirroring the body of
the `for raw in …splitlines()` loop of `parse_dimacs`:
blank lines and lines whose first (post-strip) character is `c` are
skipped; `p`-lines with at least 3 fields set `n = int(parts[2])`;
`e`-lines with at least 3 fields add a 0-indexed edge both ways; a field
on which `int()` raises aborts the whole parse (`err`); every other line
is skipped. -/
inductive LineEff where
  | skip : LineEff
  | setN (k : Int) : LineEff
  | addEdge (u v : Int) : LineEff
  | err : LineEff
deriving DecidableEq, Repr

def lineEffect (raw : String) : LineEff :=
  match pyStrip raw.data with
  | [] => .skip
  | c0 :: cs =>
    let parts := pyWords (c0 :: cs)
    if c0 = 'c' then .skip
    else if c0 = 'p' then
      if 3 ≤ parts.length then
        match pyIntTok (parts.getD 2 []) with
        | some k => .setN k
        | none => .err
      else .skip
    else if c0 = 'e' then
      if 3 ≤ parts.length then
        match pyIntTok (parts.getD 1 []), pyIntTok (parts.getD 2 []) with
        | some u, some v => .addEdge (u - 1) (v - 1)
        | _, _ => .err
      else .skip
    else .skip

/-- Parser accumulator: the current value of `n` and the list of directed
pairs inserted into the `adj` defaultdict-of-sets (`adj[u].add(v)` and
`adj[v].add(u)`); set semantics is recovered by deduplication below. -/
structure PState where
  n : Int
  pairs : List (Int × Int)
deriving DecidableEq, Repr

def stepLine (s : PState) (raw : String) : Except String PState :=
  match lineEffect raw with
  | .skip => .ok s
  | .setN k => .ok { s with n := k }
  | .addEdge u v => .ok { s with pairs := s.pairs ++ [(u, v), (v, u)] }
  | .err => .error "invalid literal for int() with base 10"

/-- The line loop of `parse_dimacs`. -/
def runLines (lines : List String) : Except String PState :=
  lines.foldlM stepLine { n := 0, pairs := [] }

/-- Python `sorted(adj[i])`: the sorted duplicate-free list of `v` with `(i,v)`
among the inserted pairs. -/
def neighborsOf (pairs : List (Int × Int)) (i : Int) : List Int :=
  sortedDedup (pairs.filterMap (fun p => if p.1 = i then some p.2 else none))

/-- The dict returned by `parse_dimacs` (the `density` entry, a rounded
float used only for display, is omitted from the embedding; no claim
involves it). -/
structure GraphDesc where
  n : Int
  m : Int
  voisins : List (List Int)
  adj_flat : List Int
  start : List Int
  deg : List Int
deriving DecidableEq, Repr

/-- The construction after the line loop:
`voisins = [sorted(adj[i]) for i in range(n)]`, `deg`, `m = sum(deg)//2`,
the CSR `start` array (`start[0] = 0`, `start[i] = start[i-1]+deg[i-1]`,
i.e. `start[i]` is the sum of the first `i` degrees; for `n ≤ 0`,
Python's `[0]*n` is the empty list, matching `List.range n.toNat`), and
the flat adjacency `adj_flat`.  Lean's `Int` division on the nonnegative
degree sum coincides with Python's floor division `//`. -/
def buildDesc (s : PState) : GraphDesc :=
  let nn := s.n.toNat
  let voisins := (List.range nn).map (fun i : Nat => neighborsOf s.pairs i)
  let deg := voisins.map (fun l => (l.length : Int))
  { n := s.n
    m := deg.sum / 2
    voisins := voisins
    adj_flat := voisins.flatten
    start := (List.range nn).map (fun i => (deg.take i).sum)
    deg := deg }

/-- The function `parse_dimacs`, over the decoded line list: run the loop, then raise
`ValueError("No vertices found …")` iff `n == 0`. -/
def parse_dimacs (lines : List String) : Except String GraphDesc :=
  match runLines lines with
  | .error e => .error e
  | .ok s =>
    if s.n = 0 then .error "No vertices found – check the DIMACS file format."
    else .ok (buildDesc s)

example : parse_dimacs ["p edge 3 3", "e 1 2", "e 2 3", "e 1 3"] =
    .ok { n := 3, m := 3, voisins := [[1, 2], [0, 2], [0, 1]],
          adj_flat := [1, 2, 0, 2, 0, 1], start := [0, 2, 4], deg := [2, 2, 2] } := by
  rfl

example : parse_dimacs ["c hi", "", "  p edge 2 1", "e 1 2", "e 2 1", "e 1 2"] =
    .ok { n := 2, m := 1, voisins := [[1], [0]],
          adj_flat := [1, 0], start := [0, 1], deg := [1, 1] } := by
  rfl

example : parse_dimacs ["e 1 2"] =
    .error "No vertices found – check the DIMACS file format." := by rfl

example : parse_dimacs ["p edge -2 0"] =
    .ok { n := -2, m := 0, voisins := [], adj_flat := [], start := [], deg := [] } := by
  rfl

example : parse_dimacs ["p edge 3 9", "e 1 1", "e 1 5"] =
    .ok { n := 3, m := 1, voisins := [[0, 4], [], []],
          adj_flat := [0, 4], start := [0, 2, 2], deg := [2, 0, 0] } := by
  rfl

/- ──────────────────── sortedDedup : basic properties ──────────────────── -/

theorem mem_insDedup (a x : Int) (l : List Int) : a ∈ insDedup x l ↔ a = x ∨ a ∈ l := by
  induction l with
  | nil => simp [insDedup]
  | cons y ys ih =>
    by_cases h1 : x < y
    · simp [insDedup, h1]
    · by_cases h2 : x = y
      · subst h2; simp [insDedup, h1]
      · simp [insDedup, h1, h2, ih]; tauto

theorem sorted_insDedup (x : Int) (l : List Int) (h : l.Pairwise (· < ·)) :
    (insDedup x l).Pairwise (· < ·) := by
  induction l with
  | nil => simp [insDedup]
  | cons y ys ih =>
    rcases List.pairwise_cons.mp h with ⟨hy, hys⟩
    simp only [insDedup]
    by_cases h1 : x < y
    · simp only [if_pos h1]
      refine List.pairwise_cons.mpr ⟨?_, h⟩
      intro a ha
      rcases List.mem_cons.mp ha with rfl | ha
      · exact h1
      · exact lt_trans h1 (hy a ha)
    · simp only [if_neg h1]
      by_cases h2 : x = y
      · simp only [if_pos h2]; exact h
      · simp only [if_neg h2]
        refine List.pairwise_cons.mpr ⟨?_, ih hys⟩
        intro a ha
        rcases (mem_insDedup a x ys).mp ha with rfl | ha
        · omega
        · exact hy a ha

theorem mem_sortedDedup (a : Int) (l : List Int) : a ∈ sortedDedup l ↔ a ∈ l := by
  induction l with
  | nil => simp [sortedDedup]
  | cons y ys ih =>
    simp only [sortedDedup, List.foldr_cons] at *
    rw [mem_insDedup, ih]
    simp

theorem sorted_sortedDedup (l : List Int) : (sortedDedup l).Pairwise (· < ·) := by
  induction l with
  | nil => simp [sortedDedup]
  | cons y ys ih => exact sorted_insDedup y _ ih

theorem nodup_sortedDedup (l : List Int) : (sortedDedup l).Nodup :=
  (sorted_sortedDedup l).imp ne_of_lt

theorem length_sortedDedup (l : List Int) : (sortedDedup l).length = l.toFinset.card := by
  rw [← List.toFinset_card_of_nodup (nodup_sortedDedup l)]
  congr 1
  ext a
  simp [mem_sortedDedup]

/-- Two int lists with the same elements have the same `sortedDedup`. -/
theorem sortedDedup_eq_of_toFinset_eq (l₁ l₂ : List Int) (h : l₁.toFinset = l₂.toFinset) :
    sortedDedup l₁ = sortedDedup l₂ := by
  haveI : IsAntisymm Int (· < ·) := ⟨fun a b h1 h2 => absurd h2 (lt_asymm h1)⟩
  refine List.eq_of_perm_of_sorted ?_ (sorted_sortedDedup l₁) (sorted_sortedDedup l₂)
  refine List.perm_of_nodup_nodup_toFinset_eq (nodup_sortedDedup l₁) (nodup_sortedDedup l₂) ?_
  ext a
  simp only [List.mem_toFinset, mem_sortedDedup]
  constructor
  · intro ha; have := h ▸ (List.mem_toFinset.mpr ha); exact List.mem_toFinset.mp this
  · intro ha; have := h ▸ (List.mem_toFinset.mpr ha); exact List.mem_toFinset.mp this

/- ──────────────────── runLines : structural lemmas ──────────────────── -/

/-- The loop from an arbitrary accumulator state. -/
def runFrom (s : PState) (lines : List String) : Except String PState :=
  lines.foldlM stepLine s

theorem runLines_eq_runFrom (lines : List String) :
    runLines lines = runFrom { n := 0, pairs := [] } lines := rfl

theorem runFrom_nil (s : PState) : runFrom s [] = .ok s := rfl

theorem runFrom_cons (s : PState) (l : String) (ls : List String) :
    runFrom s (l :: ls) =
      match stepLine s l with
      | .ok s' => runFrom s' ls
      | .error e => .error e := by
  simp only [runFrom, List.foldlM_cons]
  cases h : stepLine s l <;> rfl

theorem runFrom_append (s : PState) (L1 L2 : List String) :
    runFrom s (L1 ++ L2) =
      match runFrom s L1 with
      | .ok s' => runFrom s' L2
      | .error e => .error e := by
  induction L1 generalizing s with
  | nil => simp [runFrom_nil]
  | cons l ls ih =>
    rw [List.cons_append, runFrom_cons, runFrom_cons]
    cases h : stepLine s l with
    | ok s' => exact ih s'
    | error e => rfl

/-- Pairs only accumulate along the loop. -/
theorem runFrom_pairs_mono (lines : List String) (s s' : PState)
    (h : runFrom s lines = .ok s') : ∀ p ∈ s.pairs, p ∈ s'.pairs := by
  induction lines generalizing s with
  | nil => rw [runFrom_nil] at h; cases h; exact fun p hp => hp
  | cons l ls ih =>
    rw [runFrom_cons] at h
    cases hs : stepLine s l with
    | ok s₁ =>
      rw [hs] at h
      intro p hp
      refine ih s₁ h p ?_
      unfold stepLine at hs
      cases he : lineEffect l <;> rw [he] at hs <;> cases hs <;> simp [hp]
    | error e => rw [hs] at h; cases h

/-- Every accumulated pair either was present initially or originates from
an `e`-line of the input, in one of the two stored orientations. -/
theorem runFrom_pairs_source (lines : List String) (s s' : PState)
    (h : runFrom s lines = .ok s') :
    ∀ p ∈ s'.pairs, p ∈ s.pairs ∨
      ∃ l ∈ lines, ∃ u v, lineEffect l = .addEdge u v ∧ (p = (u, v) ∨ p = (v, u)) := by
  induction lines generalizing s with
  | nil => rw [runFrom_nil] at h; cases h; exact fun p hp => Or.inl hp
  | cons l ls ih =>
    rw [runFrom_cons] at h
    cases hs : stepLine s l with
    | ok s₁ =>
      rw [hs] at h
      intro p hp
      rcases ih s₁ h p hp with hp₁ | ⟨l₀, hl₀, u, v, he, hor⟩
      · unfold stepLine at hs
        cases he : lineEffect l <;> rw [he] at hs <;> cases hs
        · exact Or.inl hp₁
        · exact Or.inl hp₁
        · rename_i u v
          rcases List.mem_append.mp hp₁ with hp₂ | hp₂
          · exact Or.inl hp₂
          · refine Or.inr ⟨l, List.mem_cons_self l ls, u, v, he, ?_⟩
            simp only [List.mem_cons, List.not_mem_nil, or_false] at hp₂
            exact hp₂
      · exact Or.inr ⟨l₀, List.mem_cons_of_mem l hl₀, u, v, he, hor⟩
    | error e => rw [hs] at h; cases h

/-- A processed `e`-line contributes both orientations of its pair. -/
theorem runFrom_pairs_of_line (l : String) (u v : Int) (s' : PState)
    (he : lineEffect l = .addEdge u v) :
    ∀ (lines : List String) (s : PState), l ∈ lines → runFrom s lines = .ok s' →
      (u, v) ∈ s'.pairs ∧ (v, u) ∈ s'.pairs := by
  intro lines
  induction lines with
  | nil => intro s hl _; cases hl
  | cons l₀ ls ih =>
    intro s hl h
    rw [runFrom_cons] at h
    cases hs : stepLine s l₀ with
    | ok s₁ =>
      rw [hs] at h
      rcases List.mem_cons.mp hl with rfl | hl₀
      · unfold stepLine at hs
        rw [he] at hs
        cases hs
        constructor
        · exact runFrom_pairs_mono ls _ _ h (u, v) (by simp)
        · exact runFrom_pairs_mono ls _ _ h (v, u) (by simp)
      · exact ih s₁ hl₀ h
    | error e => rw [hs] at h; cases h

/-- The accumulated pair list is symmetric (provided the initial one is). -/
theorem runFrom_pairs_symm (lines : List String) (s s' : PState)
    (hsym : ∀ a b : Int, (a, b) ∈ s.pairs → (b, a) ∈ s.pairs)
    (h : runFrom s lines = .ok s') :
    ∀ a b : Int, (a, b) ∈ s'.pairs → (b, a) ∈ s'.pairs := by
  induction lines generalizing s with
  | nil => rw [runFrom_nil] at h; cases h; exact hsym
  | cons l ls ih =>
    rw [runFrom_cons] at h
    cases hs : stepLine s l with
    | ok s₁ =>
      rw [hs] at h
      refine ih s₁ ?_ h
      unfold stepLine at hs
      cases he : lineEffect l <;> rw [he] at hs <;> cases hs
      · exact hsym
      · exact hsym
      · intro a b hab
        rcases List.mem_append.mp hab with h1 | h1
        · exact List.mem_append.mpr (Or.inl (hsym a b h1))
        · simp only [List.mem_cons, List.mem_singleton] at h1
          rcases h1 with h1 | h1 | h1 <;> cases h1 <;> simp
    | error e => rw [hs] at h; cases h

/- ──────────────────── buildDesc : accessor lemmas ──────────────────── -/

theorem buildDesc_n (s : PState) : (buildDesc s).n = s.n := rfl

theorem buildDesc_voisins (s : PState) :
    (buildDesc s).voisins =
      (List.range s.n.toNat).map (fun i : Nat => neighborsOf s.pairs i) := rfl

theorem buildDesc_deg (s : PState) :
    (buildDesc s).deg = (buildDesc s).voisins.map (fun l => (l.length : Int)) := rfl

theorem buildDesc_adj_flat (s : PState) :
    (buildDesc s).adj_flat = (buildDesc s).voisins.flatten := rfl

theorem buildDesc_start (s : PState) :
    (buildDesc s).start =
      (List.range s.n.toNat).map (fun i => ((buildDesc s).deg.take i).sum) := rfl

theorem buildDesc_m (s : PState) : (buildDesc s).m = (buildDesc s).deg.sum / 2 := rfl

theorem voisins_getD (s : PState) (i : Nat) (hi : i < s.n.toNat) :
    (buildDesc s).voisins.getD i [] = neighborsOf s.pairs (i : Int) := by
  rw [buildDesc_voisins]
  have hlen : i < ((List.range s.n.toNat).map
      (fun i : Nat => neighborsOf s.pairs i)).length := by simpa using hi
  rw [List.getD_eq_getElem _ _ hlen, List.getElem_map, List.getElem_range]

theorem voisins_getD_beyond (s : PState) (i : Nat) (hi : ¬ i < s.n.toNat) :
    (buildDesc s).voisins.getD i [] = [] := by
  rw [buildDesc_voisins]
  apply List.getD_eq_default
  simpa using Nat.le_of_not_lt hi

theorem mem_neighborsOf (pairs : List (Int × Int)) (i x : Int) :
    x ∈ neighborsOf pairs i ↔ (i, x) ∈ pairs := by
  unfold neighborsOf
  rw [mem_sortedDedup, List.mem_filterMap]
  constructor
  · rintro ⟨p, hp, hfx⟩
    by_cases h : p.1 = i
    · rw [if_pos h] at hfx
      have hx : p.2 = x := Option.some.inj hfx
      have : p = (i, x) := Prod.ext h hx
      exact this ▸ hp
    · rw [if_neg h] at hfx; cases hfx
  · intro h
    exact ⟨(i, x), h, by simp⟩

/-- A successful `parse_dimacs` comes from a successful line loop with
nonzero `n`. -/
theorem parse_dimacs_ok (lines : List String) (d : GraphDesc)
    (h : parse_dimacs lines = .ok d) :
    ∃ s : PState, runLines lines = .ok s ∧ d = buildDesc s ∧ s.n ≠ 0 := by
  unfold parse_dimacs at h
  cases hr : runLines lines with
  | error e => rw [hr] at h; cases h
  | ok s =>
    rw [hr] at h
    dsimp only at h
    by_cases hn : s.n = 0
    · rw [if_pos hn] at h; cases h
    · rw [if_neg hn] at h
      refine ⟨s, rfl, ?_, hn⟩
      cases h
      rfl

/- ──────────────────────────── Claim C6 ──────────────────────────── -/

/-- C6: for every input accepted by `parse_dimacs` and every edge line
`e U V` in it (a line whose effect is to add the 0-indexed pair
`(U−1, V−1)`) with `1 ≤ U, V ≤ n` and `U ≠ V`, the returned descriptor
stores the edge 0-indexed and symmetrically: `V−1` appears in the
neighbor list of vertex `U−1` and `U−1` appears in the neighbor list of
vertex `V−1`. -/
theorem c6_edge_stored_symmetrically
    (lines : List String) (d : GraphDesc) (l : String) (U V : Int)
    (hp : parse_dimacs lines = .ok d) (hl : l ∈ lines)
    (he : lineEffect l = .addEdge (U - 1) (V - 1))
    (hU1 : 1 ≤ U) (hUn : U ≤ d.n) (hV1 : 1 ≤ V) (hVn : V ≤ d.n) (_hUV : U ≠ V) :
    (V - 1) ∈ d.voisins.getD (U - 1).toNat [] ∧
    (U - 1) ∈ d.voisins.getD (V - 1).toNat [] := by
  obtain ⟨s, hrun, hd, hn⟩ := parse_dimacs_ok lines d hp
  have hpairs := runFrom_pairs_of_line l (U - 1) (V - 1) s he lines _ hl hrun
  have hnd : d.n = s.n := by rw [hd]; rfl
  subst hd
  have hUn' : (U - 1).toNat < s.n.toNat := by
    rw [hnd] at hUn; omega
  have hVn' : (V - 1).toNat < s.n.toNat := by
    rw [hnd] at hVn; omega
  have hUcast : (((U - 1).toNat : Nat) : Int) = U - 1 := by omega
  have hVcast : (((V - 1).toNat : Nat) : Int) = V - 1 := by omega
  constructor
  · rw [voisins_getD s _ hUn', hUcast, mem_neighborsOf]
    exact hpairs.1
  · rw [voisins_getD s _ hVn', hVcast, mem_neighborsOf]
    exact hpairs.2

/-- Witness for C6 on the input `p edge 3 3` / `e 1 2`. -/
theorem c6_witness :
    (2 - 1 : Int) ∈
      ({ n := 3, m := 1, voisins := [[1], [0], []], adj_flat := [1, 0],
         start := [0, 1, 2], deg := [1, 1, 0] } : GraphDesc).voisins.getD (1 - 1 : Int).toNat [] ∧
    (1 - 1 : Int) ∈
      ({ n := 3, m := 1, voisins := [[1], [0], []], adj_flat := [1, 0],
         start := [0, 1, 2], deg := [1, 1, 0] } : GraphDesc).voisins.getD (2 - 1 : Int).toNat [] :=
  c6_edge_stored_symmetrically ["p edge 3 3", "e 1 2"] _ "e 1 2" 1 2
    (by rfl) (by simp) (by rfl) (by decide) (by decide) (by decide) (by decide) (by decide)

/- ──────────────────────────── Claim C3 ──────────────────────────── -/

/-- C3 counterexample: the input `["p edge 3 0", "p edge 0 0"]` contains a
`p` line setting a positive vertex count (the first line sets `n = 3`),
yet `parse_dimacs` raises, because each `p` line overwrites `n` and the
last one sets `n = 0`.  This falsifies "fails exactly when no `p` line
sets a positive vertex count". -/
theorem c3_counterexample :
    lineEffect "p edge 3 0" = .setN 3 ∧
    parse_dimacs ["p edge 3 0", "p edge 0 0"] =
      .error "No vertices found – check the DIMACS file format." :=
  ⟨rfl, rfl⟩

/-- C3 (amended): whenever the line loop itself succeeds (every numeric
field of a processed `p`/`e` line parses as an integer), `parse_dimacs`
returns a descriptor iff the final value of `n` — initially 0, overwritten
by each `p` line, so determined by the last one — is nonzero; it raises
iff that final value is 0 (so: when no `p` line appears, or the last
`p` line sets `n = 0`). -/
theorem c3_amended_raises_iff_final_n_zero (lines : List String) (s : PState)
    (h : runLines lines = .ok s) :
    (parse_dimacs lines).isOk = true ↔ s.n ≠ 0 := by
  unfold parse_dimacs
  rw [h]
  dsimp only
  by_cases hn : s.n = 0
  · rw [if_pos hn,
      show (Except.error "No vertices found – check the DIMACS file format." :
        Except String GraphDesc).isOk = false from rfl]
    simp [hn]
  · rw [if_neg hn,
      show (Except.ok (buildDesc s) : Except String GraphDesc).isOk = true from rfl]
    simp [hn]

/-- Witness for C3 on the input `["p edge 2 0"]`. -/
theorem c3_witness :
    (parse_dimacs ["p edge 2 0"]).isOk = true ↔ ({ n := 2, pairs := [] } : PState).n ≠ 0 :=
  c3_amended_raises_iff_final_n_zero ["p edge 2 0"] { n := 2, pairs := [] } rfl

/- ──────────────────────────── Claim C9 ──────────────────────────── -/

/-- The internal-consistency property claimed for the CSR form (claim C9),
read index-by-index: `start[0] = 0`; `start[i] = start[i-1] + deg[i-1]`
for `1 ≤ i < n`; `deg[i]` is the length of the `i`-th neighbor list;
`adj_flat` is the concatenation of the neighbor lists in vertex order;
each neighbor list is strictly increasing. -/
def csrConsistent (d : GraphDesc) : Prop :=
  d.start[0]? = some 0 ∧
  (∀ i ∈ List.range d.n.toNat, 1 ≤ i →
      d.start[i]? = some (d.start.getD (i - 1) 0 + d.deg.getD (i - 1) 0)) ∧
  (∀ i ∈ List.range d.n.toNat, d.deg[i]? = some ((d.voisins.getD i []).length : Int)) ∧
  d.adj_flat = d.voisins.flatten ∧
  (∀ l ∈ d.voisins, l.Pairwise (· < ·))

instance (d : GraphDesc) : Decidable (csrConsistent d) := by
  unfold csrConsistent
  infer_instance

/-- C9 counterexample: on `["p edge -2 0"]` the parser accepts (the
`n == 0` check passes since `n = -2`) and returns a descriptor whose
`start` array is empty, so `start[0] = 0` fails. -/
theorem c9_counterexample :
    parse_dimacs ["p edge -2 0"] =
      .ok { n := -2, m := 0, voisins := [], adj_flat := [], start := [], deg := [] } ∧
    ¬ csrConsistent { n := -2, m := 0, voisins := [], adj_flat := [], start := [], deg := [] } :=
  ⟨rfl, by decide⟩

/-- C9 (amended): every descriptor returned by `parse_dimacs` whose vertex
count is at least 1 (the only descriptors with an empty `start` array are
the degenerate ones produced by a negative `p`-line count) has an
internally consistent CSR form. -/
theorem c9_amended_csr_consistent (lines : List String) (d : GraphDesc)
    (hp : parse_dimacs lines = .ok d) (hn : 1 ≤ d.n) : csrConsistent d := by
  obtain ⟨s, hrun, hd, hne⟩ := parse_dimacs_ok lines d hp
  subst hd
  have hbn : (buildDesc s).n = s.n := rfl
  have hnn : 1 ≤ s.n.toNat := by rw [hbn] at hn; omega
  have hstart_at : ∀ i : Nat, i < s.n.toNat →
      (buildDesc s).start[i]? = some (((buildDesc s).deg.take i).sum) := by
    intro i hi
    rw [buildDesc_start, List.getElem?_map, List.getElem?_range hi]
    rfl
  have hvois_at : ∀ i : Nat, i < s.n.toNat →
      (buildDesc s).voisins[i]? = some (neighborsOf s.pairs (i : Int)) := by
    intro i hi
    rw [buildDesc_voisins, List.getElem?_map, List.getElem?_range hi]
    rfl
  have hdeg_at : ∀ i : Nat, i < s.n.toNat →
      (buildDesc s).deg[i]? = some (((buildDesc s).voisins.getD i []).length : Int) := by
    intro i hi
    rw [buildDesc_deg, List.getElem?_map, hvois_at i hi, voisins_getD s i hi]
    rfl
  have hdeglen : (buildDesc s).deg.length = s.n.toNat := by
    rw [buildDesc_deg, List.length_map, buildDesc_voisins, List.length_map,
      List.length_range]
  refine ⟨?_, ?_, ?_, rfl, ?_⟩
  · rw [hstart_at 0 hnn]
    rfl
  · intro i hi h1
    rw [List.mem_range] at hi
    have hi' : i < s.n.toNat := hi
    have hi1 : i - 1 < s.n.toNat := by omega
    rw [hstart_at i hi']
    congr 1
    rw [List.getD_eq_getElem?_getD, List.getD_eq_getElem?_getD, hstart_at (i - 1) hi1,
      hdeg_at (i - 1) hi1]
    have hdeg1 : i - 1 < (buildDesc s).deg.length := by omega
    have h2 := hdeg_at (i - 1) hi1
    rw [List.getElem?_eq_getElem hdeg1] at h2
    have hval := Option.some.inj h2
    have hrw : i = (i - 1) + 1 := by omega
    rw [hrw, List.sum_take_succ _ _ hdeg1, hval]
    rfl
  · intro i hi
    rw [List.mem_range] at hi
    exact hdeg_at i hi
  · intro l hl
    rw [buildDesc_voisins] at hl
    rcases List.mem_map.mp hl with ⟨i, _, rfl⟩
    exact sorted_sortedDedup _

/-- Witness for C9 on the input `p edge 2 1` / `e 1 2`. -/
theorem c9_witness :
    parse_dimacs ["p edge 2 1", "e 1 2"] =
      .ok { n := 2, m := 1, voisins := [[1], [0]], adj_flat := [1, 0],
            start := [0, 1], deg := [1, 1] } ∧
    csrConsistent { n := 2, m := 1, voisins := [[1], [0]], adj_flat := [1, 0],
                    start := [0, 1], deg := [1, 1] } :=
  ⟨rfl, c9_amended_csr_consistent ["p edge 2 1", "e 1 2"]
    { n := 2, m := 1, voisins := [[1], [0]], adj_flat := [1, 0],
      start := [0, 1], deg := [1, 1] } rfl (by decide)⟩

/- ──────────────────────────── Claim C2 ──────────────────────────── -/

/-- Prefix sums of a list of nonnegative integers are monotone. -/
theorem sum_take_mono_of_nonneg (l : List Int) (hpos : ∀ x ∈ l, 0 ≤ x)
    (i j : Nat) (hij : i ≤ j) : (l.take i).sum ≤ (l.take j).sum := by
  have hsplit : l.take j = l.take i ++ (l.drop i).take (j - i) := by
    rw [← List.take_add]
    congr 1
    omega
  rw [hsplit, List.sum_append]
  have hge : 0 ≤ ((l.drop i).take (j - i)).sum := by
    apply List.sum_nonneg
    intro x hx
    exact hpos x (List.drop_subset i l (List.take_subset _ _ hx))
  omega

/-- All pairs accumulated from a well-behaved input are in range and
irreflexive. -/
theorem pairs_good (lines : List String) (s : PState)
    (hrun : runLines lines = .ok s)
    (hgood : ∀ l ∈ lines, ∀ u v : Int, lineEffect l = .addEdge u v →
      0 ≤ u ∧ u < s.n ∧ 0 ≤ v ∧ v < s.n ∧ u ≠ v) :
    ∀ p ∈ s.pairs, 0 ≤ p.1 ∧ p.1 < s.n ∧ 0 ≤ p.2 ∧ p.2 < s.n ∧ p.1 ≠ p.2 := by
  intro p hp
  rcases runFrom_pairs_source lines _ s hrun p hp with h0 | ⟨l, hl, u, v, he, hor⟩
  · cases h0
  · have hb := hgood l hl u v he
    rcases hor with rfl | rfl
    · exact ⟨hb.1, hb.2.1, hb.2.2.1, hb.2.2.2.1, hb.2.2.2.2⟩
    · exact ⟨hb.2.2.1, hb.2.2.2.1, hb.1, hb.2.1, fun hvu => hb.2.2.2.2 hvu.symm⟩

/-- C2 counterexample: on `["p edge 3 9", "e 1 1", "e 1 5"]` the parser
returns a descriptor (no validation is performed) violating each of the
four §6.1 integrity guarantees: `adj_flat` contains `4 ≥ n = 3`; `start`
is `[0, 2, 2]`, not strictly increasing; the pair `(0, 4)` is present in
the flat adjacency while `(4, 0)` is not; and vertex 0 is adjacent to
itself. -/
theorem c2_counterexample :
    parse_dimacs ["p edge 3 9", "e 1 1", "e 1 5"] =
      .ok { n := 3, m := 1, voisins := [[0, 4], [], []],
            adj_flat := [0, 4], start := [0, 2, 2], deg := [2, 0, 0] } ∧
    ¬ (∀ x ∈ ([0, 4] : List Int), 0 ≤ x ∧ x < (3 : Int)) ∧
    ¬ (([0, 2, 2] : List Int).Pairwise (· < ·)) ∧
    ¬ (∀ (u : Nat) (x : Int),
        x ∈ ([[0, 4], [], []] : List (List Int)).getD u [] →
        (u : Int) ∈ ([[0, 4], [], []] : List (List Int)).getD x.toNat []) ∧
    ¬ (∀ u : Nat, ((u : Int)) ∉ ([[0, 4], [], []] : List (List Int)).getD u []) := by
  refine ⟨rfl, ?_, by decide, ?_, ?_⟩
  · intro h
    exact absurd (h 4 (by decide)).2 (by decide)
  · intro h
    exact absurd (h 0 4 (by decide)) (by decide)
  · intro h
    exact absurd (by decide : ((0 : Nat) : Int) ∈ ([[0, 4], [], []] :
      List (List Int)).getD 0 []) (h 0)

/-- C2 (amended): for every accepted input all of whose `e`-lines have
endpoints `1 ≤ U, V ≤ n` (0-indexed: `0 ≤ u, v < n`) and `U ≠ V`, the
returned descriptor satisfies the §6.1 guarantees, with "row_start
strictly increasing" weakened to "non-decreasing" (consecutive entries
are equal at vertices of degree 0, as the counterexample's isolated
vertices show): every `adj_flat` entry is in `[0, n)`; `start` is
non-decreasing; for every pair `(u,v)` in the flat adjacency the reverse
pair `(v,u)` is present; and no vertex is adjacent to itself. -/
theorem c2_amended_integrity (lines : List String) (d : GraphDesc)
    (hp : parse_dimacs lines = .ok d)
    (hgood : ∀ l ∈ lines, ∀ u v : Int, lineEffect l = .addEdge u v →
      0 ≤ u ∧ u < d.n ∧ 0 ≤ v ∧ v < d.n ∧ u ≠ v) :
    (∀ x ∈ d.adj_flat, 0 ≤ x ∧ x < d.n) ∧
    d.start.Pairwise (· ≤ ·) ∧
    (∀ (u : Nat) (x : Int), x ∈ d.voisins.getD u [] →
        (u : Int) ∈ d.voisins.getD x.toNat []) ∧
    (∀ u : Nat, ((u : Int)) ∉ d.voisins.getD u []) := by
  obtain ⟨s, hrun, hd, hne⟩ := parse_dimacs_ok lines d hp
  subst hd
  have hbn : (buildDesc s).n = s.n := rfl
  rw [hbn] at hgood
  have hPG := pairs_good lines s hrun hgood
  have hsymm := runFrom_pairs_symm lines _ s (by intro a b hab; cases hab) hrun
  have hmemrow : ∀ (i : Nat) (x : Int), x ∈ (buildDesc s).voisins.getD i [] →
      ((i : Int), x) ∈ s.pairs := by
    intro i x hx
    by_cases hi : i < s.n.toNat
    · rw [voisins_getD s i hi, mem_neighborsOf] at hx
      exact hx
    · rw [voisins_getD_beyond s i hi] at hx
      cases hx
  constructor
  · intro x hx
    rw [buildDesc_adj_flat, List.mem_flatten] at hx
    rcases hx with ⟨row, hrow, hxrow⟩
    rw [buildDesc_voisins] at hrow
    rcases List.mem_map.mp hrow with ⟨i, _, rfl⟩
    rw [mem_neighborsOf] at hxrow
    have := hPG _ hxrow
    exact ⟨this.2.2.1, this.2.2.2.1⟩
  constructor
  · rw [buildDesc_start]
    rw [List.pairwise_map]
    refine (List.pairwise_lt_range _).imp ?_
    intro a b hab
    refine sum_take_mono_of_nonneg _ ?_ a b (le_of_lt hab)
    intro x hx
    rw [buildDesc_deg] at hx
    rcases List.mem_map.mp hx with ⟨row, _, rfl⟩
    exact Int.ofNat_nonneg _
  constructor
  · intro u x hx
    have hpair := hmemrow u x hx
    have hb := hPG _ hpair
    have hrev : (x, (u : Int)) ∈ s.pairs := hsymm _ _ hpair
    have hxn : x.toNat < s.n.toNat := by
      have h1 : 0 ≤ x := hb.2.2.1
      have h2 : x < s.n := hb.2.2.2.1
      omega
    rw [voisins_getD s x.toNat hxn, mem_neighborsOf]
    have hcast : ((x.toNat : Nat) : Int) = x := by
      have h1 : 0 ≤ x := hb.2.2.1
      omega
    rw [hcast]
    exact hrev
  · intro u hu
    have hpair := hmemrow u _ hu
    have hb := hPG _ hpair
    exact hb.2.2.2.2 rfl

/-- Witness for C2 on the input `p edge 2 1` / `e 1 2`. -/
theorem c2_witness :
    (∀ x ∈ ([1, 0] : List Int), 0 ≤ x ∧ x < (2 : Int)) ∧
    ([0, 1] : List Int).Pairwise (· ≤ ·) ∧
    (∀ (u : Nat) (x : Int),
        x ∈ ([[1], [0]] : List (List Int)).getD u [] →
        (u : Int) ∈ ([[1], [0]] : List (List Int)).getD x.toNat []) ∧
    (∀ u : Nat, ((u : Int)) ∉ ([[1], [0]] : List (List Int)).getD u []) := by
  refine c2_amended_integrity ["p edge 2 1", "e 1 2"]
    { n := 2, m := 1, voisins := [[1], [0]], adj_flat := [1, 0],
      start := [0, 1], deg := [1, 1] } rfl ?_
  intro l hl u v he
  simp only [List.mem_cons, List.not_mem_nil, or_false] at hl
  rcases hl with rfl | rfl
  · rw [show lineEffect "p edge 2 1" = LineEff.setN 2 from rfl] at he
    cases he
  · rw [show lineEffect "e 1 2" = LineEff.addEdge 0 1 from rfl] at he
    cases he
    refine ⟨by decide, by decide, by decide, by decide, by decide⟩

/- ──────────────────────────── Claim C7 ──────────────────────────── -/

/-- Sum of a function over `List.range` equals the `Finset.range` sum. -/
theorem list_range_map_sum {M : Type} [AddCommMonoid M] (n : Nat) (f : Nat → M) :
    ((List.range n).map f).sum = ∑ i ∈ Finset.range n, f i := by
  induction n with
  | zero => simp
  | succ k ih =>
    rw [Finset.sum_range_succ, List.range_succ, List.map_append, List.sum_append, ih]
    simp

/-- The deduplicated out-neighborhood of `i`, as the snd-image of the
fst-fiber of the accumulated pair set. -/
theorem filterMap_toFinset_eq (pairs : List (Int × Int)) (i : Int) :
    (pairs.filterMap (fun p => if p.1 = i then some p.2 else none)).toFinset =
      (pairs.toFinset.filter (fun p => p.1 = i)).image Prod.snd := by
  ext a
  simp only [List.mem_toFinset, List.mem_filterMap, Finset.mem_image, Finset.mem_filter,
    List.mem_toFinset]
  constructor
  · rintro ⟨p, hp, hfa⟩
    by_cases h : p.1 = i
    · rw [if_pos h] at hfa
      exact ⟨p, ⟨hp, h⟩, Option.some.inj hfa⟩
    · rw [if_neg h] at hfa; cases hfa
  · rintro ⟨p, ⟨hp, h⟩, rfl⟩
    exact ⟨p, hp, by rw [if_pos h]⟩

/-- On a fst-fiber, `Prod.snd` is injective. -/
theorem card_fiber_image (P : Finset (Int × Int)) (i : Int) :
    ((P.filter (fun p => p.1 = i)).image Prod.snd).card =
      (P.filter (fun p => p.1 = i)).card := by
  apply Finset.card_image_of_injOn
  intro p hp q hq hpq
  rcases Finset.mem_filter.mp hp with ⟨_, hp1⟩
  rcases Finset.mem_filter.mp hq with ⟨_, hq1⟩
  exact Prod.ext (hp1.trans hq1.symm) hpq

/-- The degree sum of a built descriptor counts the accumulated pair set,
provided every pair's first component is a valid vertex. -/
theorem degsum_eq_card (s : PState)
    (hin : ∀ p ∈ s.pairs, 0 ≤ p.1 ∧ p.1 < s.n) :
    (buildDesc s).deg.sum = (s.pairs.toFinset.card : Int) := by
  have hdeg : (buildDesc s).deg =
      (List.range s.n.toNat).map
        (fun i : Nat => ((neighborsOf s.pairs i).length : Int)) := by
    rw [buildDesc_deg, buildDesc_voisins, List.map_map]
    rfl
  rw [hdeg, list_range_map_sum]
  have hlen : ∀ i : Nat, ((neighborsOf s.pairs i).length : Int) =
      ((s.pairs.toFinset.filter (fun p => p.1 = (i : Int))).card : Int) := by
    intro i
    rw [neighborsOf, length_sortedDedup, filterMap_toFinset_eq, card_fiber_image]
  have hstep : ∑ i ∈ Finset.range s.n.toNat, ((neighborsOf s.pairs i).length : Int) =
      ∑ i ∈ Finset.range s.n.toNat,
        ((s.pairs.toFinset.filter (fun p => p.1 = (i : Int))).card : Int) := by
    refine Finset.sum_congr rfl ?_
    intro i _
    exact hlen i
  rw [hstep, ← Nat.cast_sum]
  congr 1
  have hmem : ∀ p ∈ s.pairs.toFinset,
      Prod.fst p ∈ (Finset.range s.n.toNat).image (fun i : Nat => (i : Int)) := by
    intro p hp
    rcases hin p (List.mem_toFinset.mp hp) with ⟨h0, h1⟩
    rw [Finset.mem_image]
    refine ⟨p.1.toNat, Finset.mem_range.mpr (by omega), by omega⟩
  have hfib := Finset.card_eq_sum_card_fiberwise hmem
  rw [hfib]
  rw [Finset.sum_image]
  intro a _ b _ hab
  exact Nat.cast_injective hab

/-- A finite, symmetric, irreflexive set of pairs has even cardinality. -/
theorem even_card_of_symm_irrefl (P : Finset (Int × Int))
    (hsym : ∀ p ∈ P, (p.2, p.1) ∈ P) (hirr : ∀ p ∈ P, p.1 ≠ p.2) : Even P.card := by
  have hsplit : (P.filter (fun p => p.1 < p.2)).card +
      (P.filter (fun p => ¬ p.1 < p.2)).card = P.card :=
    Finset.filter_card_add_filter_neg_card_eq_card _
  have himg : P.filter (fun p => ¬ p.1 < p.2) =
      (P.filter (fun p => p.1 < p.2)).image Prod.swap := by
    ext q
    simp only [Finset.mem_filter, Finset.mem_image]
    constructor
    · rintro ⟨hq, hnlt⟩
      have hne := hirr q hq
      refine ⟨(q.2, q.1), ⟨hsym q hq, by omega⟩, ?_⟩
      exact Prod.ext rfl rfl
    · rintro ⟨r, ⟨hr, hlt⟩, rfl⟩
      exact ⟨hsym r hr, by simp; omega⟩
  have hcard : (P.filter (fun p => ¬ p.1 < p.2)).card =
      (P.filter (fun p => p.1 < p.2)).card := by
    rw [himg, Finset.card_image_of_injective _ Prod.swap_injective]
  exact ⟨(P.filter (fun p => p.1 < p.2)).card, by omega⟩

/-- C7 counterexample: on `["p edge 2 7", "e 1 5"]` (an out-of-range
endpoint) the returned descriptor has `deg = [1, 0]`, whose sum 1 is odd,
and `m = 0 ≠ 1/2` exactly. -/
theorem c7_counterexample :
    parse_dimacs ["p edge 2 7", "e 1 5"] =
      .ok { n := 2, m := 0, voisins := [[4], []], adj_flat := [4],
            start := [0, 1], deg := [1, 0] } ∧
    ¬ (Even (([1, 0] : List Int).sum) ∧ 2 * (0 : Int) = ([1, 0] : List Int).sum) :=
  ⟨rfl, by decide⟩

/-- C7 (amended): for every accepted input all of whose `e`-lines have
in-range, non-equal endpoints, the degree sum of the returned descriptor
is even and `m` is exactly half of it. -/
theorem c7_amended_degree_sum (lines : List String) (d : GraphDesc)
    (hp : parse_dimacs lines = .ok d)
    (hgood : ∀ l ∈ lines, ∀ u v : Int, lineEffect l = .addEdge u v →
      0 ≤ u ∧ u < d.n ∧ 0 ≤ v ∧ v < d.n ∧ u ≠ v) :
    Even d.deg.sum ∧ 2 * d.m = d.deg.sum := by
  obtain ⟨s, hrun, hd, hne⟩ := parse_dimacs_ok lines d hp
  subst hd
  have hbn : (buildDesc s).n = s.n := rfl
  rw [hbn] at hgood
  have hPG := pairs_good lines s hrun hgood
  have hsymm := runFrom_pairs_symm lines _ s (by intro a b hab; cases hab) hrun
  have hsum : (buildDesc s).deg.sum = (s.pairs.toFinset.card : Int) :=
    degsum_eq_card s (fun p hp0 => ⟨(hPG p hp0).1, (hPG p hp0).2.1⟩)
  have hevenc : Even s.pairs.toFinset.card := by
    refine even_card_of_symm_irrefl _ ?_ ?_
    · intro p hp0
      rw [List.mem_toFinset] at hp0 ⊢
      exact hsymm p.1 p.2 hp0
    · intro p hp0
      exact (hPG p (List.mem_toFinset.mp hp0)).2.2.2.2
  constructor
  · rw [hsum]
    exact Int.even_coe_nat _ |>.mpr hevenc
  · rw [buildDesc_m, hsum]
    rcases hevenc with ⟨k, hk⟩
    rw [hk]
    have h2 : ((k + k : Nat) : Int) / 2 = (k : Int) := by
      have : ((k + k : Nat) : Int) = 2 * (k : Int) := by push_cast; ring
      rw [this]
      omega
    rw [h2]
    push_cast
    ring

/-- Witness for C7 on the input `p edge 2 1` / `e 1 2`. -/
theorem c7_witness :
    Even (([1, 1] : List Int).sum) ∧ 2 * (1 : Int) = ([1, 1] : List Int).sum := by
  refine c7_amended_degree_sum ["p edge 2 1", "e 1 2"]
    { n := 2, m := 1, voisins := [[1], [0]], adj_flat := [1, 0],
      start := [0, 1], deg := [1, 1] } rfl ?_
  intro l hl u v he
  simp only [List.mem_cons, List.not_mem_nil, or_false] at hl
  rcases hl with rfl | rfl
  · rw [show lineEffect "p edge 2 1" = LineEff.setN 2 from rfl] at he
    cases he
  · rw [show lineEffect "e 1 2" = LineEff.addEdge 0 1 from rfl] at he
    cases he
    refine ⟨by decide, by decide, by decide, by decide, by decide⟩

/- ──────────────────────────── Claim C10 ──────────────────────────── -/

/-- Parser states with the same `n` and the same *set* of inserted pairs
(the list may differ in duplicates and order). -/
def StEquiv (s₁ s₂ : PState) : Prop :=
  s₁.n = s₂.n ∧ s₁.pairs.toFinset = s₂.pairs.toFinset

/-- Lift of `StEquiv` to loop results. -/
def ExEquiv : Except String PState → Except String PState → Prop
  | .ok a, .ok b => StEquiv a b
  | .error e, .error f => e = f
  | _, _ => False

theorem stepLine_equiv (s₁ s₂ : PState) (l : String) (h : StEquiv s₁ s₂) :
    ExEquiv (stepLine s₁ l) (stepLine s₂ l) := by
  unfold stepLine
  cases he : lineEffect l
  · exact h
  · exact ⟨rfl, h.2⟩
  · refine ⟨h.1, ?_⟩
    rw [List.toFinset_append, List.toFinset_append, h.2]
  · rfl

theorem runFrom_equiv (ls : List String) : ∀ (s₁ s₂ : PState), StEquiv s₁ s₂ →
    ExEquiv (runFrom s₁ ls) (runFrom s₂ ls) := by
  induction ls with
  | nil => intro s₁ s₂ h; exact h
  | cons l ls ih =>
    intro s₁ s₂ h
    rw [runFrom_cons, runFrom_cons]
    have hstep := stepLine_equiv s₁ s₂ l h
    cases h1 : stepLine s₁ l <;> cases h2 : stepLine s₂ l <;> rw [h1, h2] at hstep
    · exact hstep
    · cases hstep
    · cases hstep
    · exact ih _ _ hstep

theorem neighborsOf_congr (p₁ p₂ : List (Int × Int)) (h : p₁.toFinset = p₂.toFinset)
    (i : Int) : neighborsOf p₁ i = neighborsOf p₂ i := by
  unfold neighborsOf
  apply sortedDedup_eq_of_toFinset_eq
  ext a
  rw [List.mem_toFinset, List.mem_toFinset, List.mem_filterMap, List.mem_filterMap]
  constructor
  · rintro ⟨p, hp, hf⟩
    refine ⟨p, ?_, hf⟩
    exact List.mem_toFinset.mp (h ▸ List.mem_toFinset.mpr hp)
  · rintro ⟨p, hp, hf⟩
    refine ⟨p, ?_, hf⟩
    exact List.mem_toFinset.mp (h.symm ▸ List.mem_toFinset.mpr hp)

theorem buildDesc_congr (s₁ s₂ : PState) (h : StEquiv s₁ s₂) :
    buildDesc s₁ = buildDesc s₂ := by
  have hv : (buildDesc s₁).voisins = (buildDesc s₂).voisins := by
    rw [buildDesc_voisins, buildDesc_voisins, h.1]
    apply List.map_congr_left
    intro i _
    exact neighborsOf_congr _ _ h.2 i
  have hdg : (buildDesc s₁).deg = (buildDesc s₂).deg := by
    rw [buildDesc_deg, buildDesc_deg, hv]
  have hn : (buildDesc s₁).n = (buildDesc s₂).n := h.1
  have hm : (buildDesc s₁).m = (buildDesc s₂).m := by
    rw [buildDesc_m, buildDesc_m, hdg]
  have haf : (buildDesc s₁).adj_flat = (buildDesc s₂).adj_flat := by
    rw [buildDesc_adj_flat, buildDesc_adj_flat, hv]
  have hst : (buildDesc s₁).start = (buildDesc s₂).start := by
    rw [buildDesc_start, buildDesc_start, h.1, hdg]
  have e1 : buildDesc s₁ = GraphDesc.mk (buildDesc s₁).n (buildDesc s₁).m
      (buildDesc s₁).voisins (buildDesc s₁).adj_flat (buildDesc s₁).start
      (buildDesc s₁).deg := rfl
  have e2 : buildDesc s₂ = GraphDesc.mk (buildDesc s₂).n (buildDesc s₂).m
      (buildDesc s₂).voisins (buildDesc s₂).adj_flat (buildDesc s₂).start
      (buildDesc s₂).deg := rfl
  rw [e1, e2, hn, hm, hv, haf, hst, hdg]

theorem parse_eq_of_equiv (A B : List String)
    (h : ExEquiv (runLines A) (runLines B)) : parse_dimacs A = parse_dimacs B := by
  unfold parse_dimacs
  cases hA : runLines A <;> cases hB : runLines B <;> rw [hA, hB] at h
  · rw [show ExEquiv (Except.error (α := PState) _) (Except.error _) = _ from rfl] at h
    rw [h]
  · cases h
  · cases h
  · dsimp only
    rw [h.1, buildDesc_congr _ _ h]

/-- C10: edge declarations are idempotent: repeating an `e U V` line, or
adding the reversed line `e V U`, produces exactly the same descriptor
(hence the same edge count `m`) as listing the edge once. -/
theorem c10_edge_declarations_idempotent (L1 L2 : List String) (l ldup : String)
    (u v : Int) (hl : lineEffect l = .addEdge u v)
    (hdup : lineEffect ldup = .addEdge v u) :
    parse_dimacs (L1 ++ l :: l :: L2) = parse_dimacs (L1 ++ l :: L2) ∧
    parse_dimacs (L1 ++ l :: ldup :: L2) = parse_dimacs (L1 ++ l :: L2) := by
  have hstep : ∀ s : PState,
      stepLine s l = .ok { s with pairs := s.pairs ++ [(u, v), (v, u)] } := by
    intro s
    unfold stepLine
    rw [hl]
  have hstep2 : ∀ s : PState,
      stepLine s ldup = .ok { s with pairs := s.pairs ++ [(v, u), (u, v)] } := by
    intro s
    unfold stepLine
    rw [hdup]
  constructor
  · apply parse_eq_of_equiv
    rw [runLines_eq_runFrom, runLines_eq_runFrom, runFrom_append, runFrom_append]
    cases hA : runFrom { n := 0, pairs := [] } L1
    · rfl
    · rename_i s
      dsimp only
      rw [runFrom_cons, runFrom_cons, hstep s]
      dsimp only
      rw [runFrom_cons, hstep _]
      dsimp only
      apply runFrom_equiv
      refine ⟨rfl, ?_⟩
      ext x
      simp only [List.toFinset_append, Finset.mem_union, List.mem_toFinset]
      tauto
  · apply parse_eq_of_equiv
    rw [runLines_eq_runFrom, runLines_eq_runFrom, runFrom_append, runFrom_append]
    cases hA : runFrom { n := 0, pairs := [] } L1
    · rfl
    · rename_i s
      dsimp only
      rw [runFrom_cons, runFrom_cons, hstep s]
      dsimp only
      rw [runFrom_cons, hstep2 _]
      dsimp only
      apply runFrom_equiv
      refine ⟨rfl, ?_⟩
      ext x
      simp only [List.toFinset_append, Finset.mem_union, List.mem_toFinset]
      simp only [List.mem_cons, List.not_mem_nil, or_false]
      tauto

/-- Witness for C10 with `e 1 2` duplicated and reversed. -/
theorem c10_witness :
    parse_dimacs ["p edge 2 0", "e 1 2", "e 1 2"] = parse_dimacs ["p edge 2 0", "e 1 2"] ∧
    parse_dimacs ["p edge 2 0", "e 1 2", "e 2 1"] = parse_dimacs ["p edge 2 0", "e 1 2"] :=
  c10_edge_declarations_idempotent ["p edge 2 0"] [] "e 1 2" "e 2 1" 0 1 rfl rfl

/- ════════════════ logic/solver.py and the C engines ════════════════ -/

/-!
The two branch-and-bound engines live in C files (`heuristics.c`,
`bb_sewell.c`, `bb_furini.c`) that are compiled at import time and are
not part of the Python tree; only their call surface appears in
`logic/solver.py`.  The engines below are therefore *modelled from the
spec* (§4.3–§4.6): DSATUR initial bound, greedy clique lower bound,
DSATUR-branching recursion with the Sewell shared-available-colors
tie-break or the Furini reduced-graph per-node bound.  The wall-clock
deadline is modelled by a fuel parameter: exhausting the fuel at a node
entry is "deadline expired" and sets the timeout flag.  The `cuts`
counter is modelled coarsely (Furini prunes only); no claim depends on
its numeric value.  Vertices are `0..n−1`; a graph is its list of
neighbor rows (the CSR rows).
-/

/-- The colors of the already-colored neighbors of `v` (with multiplicity). -/
def neighborColors (nbrs : List (List Nat)) (col : List (Option Nat)) (v : Nat) :
    List Nat :=
  (nbrs.getD v []).filterMap (fun u => col.getD u none)

/-- Modelled from the spec (§3): saturation degree — the number of distinct
colors among colored neighbors. -/
def satDegree (nbrs : List (List Nat)) (col : List (Option Nat)) (v : Nat) : Nat :=
  (neighborColors nbrs col v).dedup.length

/-- Modelled from the spec (§3): degree of `v` inside the uncolored
subgraph. -/
def uncolDegree (nbrs : List (List Nat)) (col : List (Option Nat)) (v : Nat) : Nat :=
  ((nbrs.getD v []).filter (fun u => (col.getD u none).isNone)).length

/-- The uncolored vertices, in increasing order. -/
def uncoloredList (n : Nat) (col : List (Option Nat)) : List Nat :=
  (List.range n).filter (fun v => (col.getD v none).isNone)

/-- Modelled from the spec (§3): `available[v]` — the colors below `ub` not
used by any colored neighbor of `v`. -/
def availColors (nbrs : List (List Nat)) (col : List (Option Nat)) (ub v : Nat) :
    List Nat :=
  (List.range ub).filter (fun c => c ∉ neighborColors nbrs col v)

/-- The multiset of assigned colors. -/
def assignedColors (col : List (Option Nat)) : List Nat := col.filterMap id

/-- The number of colors currently in use. -/
def usedCount (col : List (Option Nat)) : Nat := (assignedColors col).dedup.length

/-- The smallest color index not appearing in `s` (Python-style scan; the
searched range `0..|s|` always contains such an index). -/
def smallestNotIn (s : List Nat) : Nat :=
  (((List.range (s.length + 1)).filter (fun c => c ∉ s))).headD 0

/-- Strict lexicographic comparison of selection keys. -/
def keyLt (a b : Nat × Nat × Nat) : Prop :=
  a.1 < b.1 ∨ (a.1 = b.1 ∧ (a.2.1 < b.2.1 ∨ (a.2.1 = b.2.1 ∧ a.2.2 < b.2.2)))

instance (a b : Nat × Nat × Nat) : Decidable (keyLt a b) := by
  unfold keyLt
  infer_instance

/-- First maximum of `key` over `cands`: a strict improvement is required
to displace the incumbent, so ties resolve to the earliest (lowest id in
an ascending candidate list). -/
def pickBy (key : Nat → Nat × Nat × Nat) (cands : List Nat) : Option Nat :=
  cands.foldl
    (fun best w =>
      match best with
      | none => some w
      | some v => if keyLt (key v) (key w) then some w else some v)
    none

/-- Modelled from the spec (§4.3, §4.6): plain DSATUR choice — maximum
saturation, then maximum uncolored degree, then lowest id. -/
def pickDSATUR (n : Nat) (nbrs : List (List Nat)) (col : List (Option Nat)) :
    Option Nat :=
  pickBy (fun v => (satDegree nbrs col v, uncolDegree nbrs col v, 0))
    (uncoloredList n col)

/-- The count `|availColors v ∩ availColors u|` for one uncolored neighbor `u`. -/
def interCount (a b : List Nat) : Nat := (a.filter (fun c => c ∈ b)).length

/-- Modelled from the spec (§4.5.3): the Sewell tie-break score — the
number of shared available colors with uncolored neighbors, summed. -/
def sewellScore (nbrs : List (List Nat)) (col : List (Option Nat)) (ub v : Nat) :
    Nat :=
  (((nbrs.getD v []).filter (fun u => (col.getD u none).isNone)).map
    (fun u => interCount (availColors nbrs col ub v) (availColors nbrs col ub u))).sum

inductive Variant where
  | sewell : Variant
  | furini : Variant
deriving DecidableEq, Repr

/-- Modelled from the spec (§4.5.3, §4.6): the branching vertex.  Sewell
adds the shared-available-colors score as a third key; Furini uses plain
DSATUR. -/
def pickVertex (variant : Variant) (n : Nat) (nbrs : List (List Nat))
    (col : List (Option Nat)) (ub : Nat) : Option Nat :=
  match variant with
  | .sewell =>
    pickBy
      (fun v => (satDegree nbrs col v, uncolDegree nbrs col v,
        sewellScore nbrs col ub v))
      (uncoloredList n col)
  | .furini => pickDSATUR n nbrs col

/-- Modelled from the spec (§4.5.4): candidate colors for `v` — the
existing colors strictly below `UB − 1` still available for `v`, plus the
single new color index `usedCount` when that is `< UB`. -/
def candColors (nbrs : List (List Nat)) (col : List (Option Nat)) (ub v : Nat) :
    List Nat :=
  ((List.range (min (usedCount col) (ub - 1))).filter
      (fun c => c ∉ neighborColors nbrs col v)) ++
    (if usedCount col < ub then [usedCount col] else [])

/-- Modelled from the spec (§4.3): one DSATUR assignment — pick the
DSATUR vertex, give it the smallest color not among its neighbors'. -/
def dsaturStep (n : Nat) (nbrs : List (List Nat)) (col : List (Option Nat)) :
    List (Option Nat) :=
  match pickDSATUR n nbrs col with
  | none => col
  | some v => col.set v (some (smallestNotIn (neighborColors nbrs col v)))

def dsaturGo (n : Nat) (nbrs : List (List Nat)) :
    Nat → List (Option Nat) → List (Option Nat)
  | 0, col => col
  | k + 1, col => dsaturGo n nbrs k (dsaturStep n nbrs col)

/-- Modelled from the spec (§4.3): the DSATUR upper bound, returning
`(k, coloring)` with `k = 1 + max(coloring)`. -/
def dsatur (n : Nat) (nbrs : List (List Nat)) : Nat × List Nat :=
  let col := dsaturGo n nbrs n (List.replicate n none)
  let coloring := col.map (fun o => o.getD 0)
  (coloring.foldr max 0 + 1, coloring)

/-- Modelled from the spec (§4.3): one greedy-clique step count, over an
abstract adjacency `adjOf` (also used on the Furini reduced graph): pick
the vertex of maximum degree within the candidate set (ties to lowest
id), intersect, repeat. -/
def greedyCliqueGo (adjOf : Nat → List Nat) : Nat → List Nat → Nat
  | 0, _ => 0
  | fuel + 1, C =>
    match pickBy (fun v => ((C.filter (fun u => u ∈ adjOf v)).length, 0, 0)) C with
    | none => 0
    | some v => 1 + greedyCliqueGo adjOf fuel (C.filter (fun u => u ∈ adjOf v))

/-- Modelled from the spec (§4.3): greedy clique lower bound on the whole
graph. -/
def greedyCliqueLB (n : Nat) (nbrs : List (List Nat)) : Nat :=
  greedyCliqueGo (fun v => nbrs.getD v []) (n + 1) (List.range n)

/-- Modelled from the spec (§4.6.1): reduced-graph adjacency — neighbors
that are uncolored and whose available color set intersects `v`'s. -/
def reducedAdj (nbrs : List (List Nat)) (col : List (Option Nat)) (ub v : Nat) :
    List Nat :=
  (nbrs.getD v []).filter (fun u => (col.getD u none).isNone ∧
    0 < interCount (availColors nbrs col ub v) (availColors nbrs col ub u))

/-- Modelled from the spec (§4.6.3): the Furini node lower bound
`used + ω_R`. -/
def furiniNodeLB (n : Nat) (nbrs : List (List Nat)) (col : List (Option Nat))
    (ub : Nat) : Nat :=
  usedCount col +
    greedyCliqueGo (reducedAdj nbrs col ub) (n + 1) (uncoloredList n col)

/-- Search state of one engine (§3): current partial assignment, incumbent
`(ub, best)`, counters, timeout flag. -/
structure SearchState where
  col : List (Option Nat)
  ub : Nat
  best : List Nat
  nodes : Nat
  cuts : Nat
  timedOut : Bool
deriving Repr

def allColored (col : List (Option Nat)) : Bool := col.all (fun o => o.isSome)

def maxAssigned (col : List (Option Nat)) : Nat :=
  (col.map (fun o => o.getD 0)).foldr max 0

/-- Modelled from the spec (§4.5–§4.6): the branch-and-bound recursion.
Fuel stands for the deadline: fuel 0 at node entry = deadline expired →
timeout, keep the incumbent, unwind (no further recursion once the flag
is set).  At a full assignment of size `k < UB` the incumbent is updated.
Furini additionally prunes a node when `used + ω_R ≥ UB`.  Assignments
are reverted on return (the caller's `col` is restored after each
candidate). -/
def bb (variant : Variant) (n : Nat) (nbrs : List (List Nat)) (lb : Nat) :
    Nat → SearchState → SearchState
  | 0, st => { st with timedOut := true }
  | fuel + 1, st =>
    if st.timedOut then st
    else if st.ub ≤ lb then st
    else
      let st1 : SearchState := { st with nodes := st.nodes + 1 }
      if allColored st1.col then
        let k := maxAssigned st1.col + 1
        if k < st1.ub then
          { st1 with ub := k, best := st1.col.map (fun o => o.getD 0) }
        else st1
      else if variant = .furini ∧ st1.ub ≤ furiniNodeLB n nbrs st1.col st1.ub then
        { st1 with cuts := st1.cuts + 1 }
      else
        match pickVertex variant n nbrs st1.col st1.ub with
        | none => st1
        | some v =>
          (candColors nbrs st1.col st1.ub v).foldl
            (fun s c =>
              if s.timedOut then s
              else
                let s2 := bb variant n nbrs lb fuel
                  { s with col := s.col.set v (some c) }
                { s2 with col := s.col })
            st1

/-- The engine's out-parameters (§4.5 Termination / C out pointers). -/
structure EngineResult where
  K : Nat
  coloring : List Nat
  LB : Nat
  UBinit : Nat
  optimal : Bool
  nodes : Nat
  cuts : Nat
  timedOut : Bool
deriving Repr

/-- Modelled from the spec (§4.5, §4.6): one engine run — greedy clique
LB, DSATUR incumbent, immediate return when `LB == UB`, otherwise the
B&B recursion; `optimal = (LB == UB ∧ ¬timeout)`. -/
def solveEngine (variant : Variant) (n : Nat) (nbrs : List (List Nat))
    (fuel : Nat) : EngineResult :=
  let lb := greedyCliqueLB n nbrs
  let du := dsatur n nbrs
  if lb = du.1 then
    { K := du.1, coloring := du.2, LB := lb, UBinit := du.1, optimal := true,
      nodes := 1, cuts := 0, timedOut := false }
  else
    let st := bb variant n nbrs lb fuel
      { col := List.replicate n none, ub := du.1, best := du.2,
        nodes := 0, cuts := 0, timedOut := false }
    { K := st.ub, coloring := st.best, LB := lb, UBinit := du.1,
      optimal := decide (lb = st.ub) && !st.timedOut,
      nodes := st.nodes, cuts := st.cuts, timedOut := st.timedOut }

example :
    (solveEngine .sewell 3 [[1, 2], [0, 2], [0, 1]] 50).K = 3 := by rfl

example :
    (solveEngine .furini 3 [[1, 2], [0, 2], [0, 1]] 50).coloring = [0, 1, 2] := by
  rfl

example :
    (solveEngine .sewell 4 [[1], [0], [3], [2]] 50).K = 2 := by rfl

/- ──────────────── logic/solver.py : ctypes wrapper ──────────────── -/

/-- One C progress callback payload `(nodes, UB, LB, t, cuts)`.  The C
`double` elapsed time is carried as an opaque integer tick count: no
claim computes with it, it is only passed through. -/
structure CbEvent where
  noeuds : Int
  ub : Int
  lb : Int
  temps : Int
  coupes : Int
deriving DecidableEq, Repr

/-- A snapshot dict as built by `_make_cb._inner` in `logic/solver.py`. -/
structure Snap where
  noeuds : Int
  ub : Int
  lb : Int
  temps : Int
  coupes : Int
  done : Bool
deriving DecidableEq, Repr

/-- The closure `_inner` wraps a callback payload with `done: False`. -/
def mkSnap (e : CbEvent) : Snap :=
  { noeuds := e.noeuds, ub := e.ub, lb := e.lb, temps := e.temps,
    coupes := e.coupes, done := false }

/-- The list `historique`, grown by appending each wrapped snapshot. -/
def historique (events : List CbEvent) : List Snap := events.map mkSnap

/-- The `live_state` dict: never updated, or holding the keys of the last
full snapshot update, or holding only the final `{"done": True}` update
(the state of a dict whose solve made no callbacks). -/
inductive LiveDict where
  | empty : LiveDict
  | snap (s : Snap) : LiveDict
  | doneOnly : LiveDict
deriving DecidableEq, Repr

/-- A call `live.update(snap)` replaces every data key (the snapshot carries all
of them). -/
def liveUpdate : LiveDict → Snap → LiveDict := fun _ s => .snap s

/-- The final `live_state.update` with `done: True` after the C call returns. -/
def liveSetDone : LiveDict → LiveDict
  | .empty => .doneOnly
  | .snap s => .snap { s with done := true }
  | .doneOnly => .doneOnly

def liveDone : LiveDict → Bool
  | .empty => false
  | .snap s => s.done
  | .doneOnly => true

/-- The dict state after all callback updates. -/
def liveAfter (events : List CbEvent) : LiveDict :=
  events.foldl (fun d e => liveUpdate d (mkSnap e)) .empty

/-- The successive states of the live dict delivered to the sink during a
solve: one per callback (each snapshot built with `done = false`), then
the final `{"done": True}` merge after the C call returns.  Since
`liveUpdate` replaces all data keys, the state after the `i`-th callback
is exactly the `i`-th wrapped snapshot. -/
def liveStates (events : List CbEvent) : List LiveDict :=
  events.map (fun e => LiveDict.snap (mkSnap e)) ++ [liveSetDone (liveAfter events)]

/-- The result dict of `_solve` in `logic/solver.py`. -/
structure PyResult where
  algo : String
  K : Int
  coloriage : List Int
  LB : Int
  UB_init : Int
  optimal : Bool
  noeuds : Int
  coupes : Int
  temps : Int
  timeout : Bool
  historique_kpi : List Snap
deriving Repr

/-- What one C call leaves behind as seen from Python: the out-parameter
values and the ordered callback payloads.  Theorems quantified over an
arbitrary engine hold for every possible behavior of the C side. -/
structure CEngineOut where
  K : Int
  coloring : List Int
  LB : Int
  UBinit : Int
  optimal : Int
  nodes : Int
  cuts : Int
  time : Int
  timeout : Int
  events : List CbEvent

/-- A C engine behind the ctypes signature `(n, adj, start, deg,
temps_max, …out pointers…)`. -/
def CEngine : Type :=
  Int → List Int → List Int → List Int → Int → CEngineOut

/-- The helper `_to_csr`: fresh ctypes arrays built by copying the descriptor's
lists (`(ctypes.c_int * m)(*adj_flat)` etc.); the C side never aliases
the Python lists. -/
def pyToCsr (graph_data : GraphDesc) : List Int × List Int × List Int :=
  (graph_data.adj_flat, graph_data.start, graph_data.deg)

/-- The `(ctypes.c_int * n)()` output buffer after the engine wrote its
coloring into it: zero-initialized, fixed length `n`. -/
def fitBuffer (n : Nat) (l : List Int) : List Int :=
  l.take n ++ List.replicate (n - l.length) 0

theorem fitBuffer_length (n : Nat) (l : List Int) : (fitBuffer n l).length = n := by
  unfold fitBuffer
  rw [List.length_append, List.length_take, List.length_replicate]
  omega

theorem fitBuffer_of_length_eq (n : Nat) (l : List Int) (h : l.length = n) :
    fitBuffer n l = l := by
  unfold fitBuffer
  rw [← h, List.take_length]
  simp

/-- The wrapper `_solve` of `logic/solver.py`: marshal CSR copies, run the engine
(appending each callback to `historique`), assemble the result dict.
The unchanged input descriptor is returned alongside to make the frame
effect of the call explicit. -/
def pySolve (engine : CEngine) (algo_name : String) (graph_data : GraphDesc)
    (temps_max : Int) : PyResult × GraphDesc :=
  let csr := pyToCsr graph_data
  let out := engine graph_data.n csr.1 csr.2.1 csr.2.2 temps_max
  ({ algo := algo_name
     K := out.K
     coloriage := fitBuffer graph_data.n.toNat out.coloring
     LB := out.LB
     UB_init := out.UBinit
     optimal := out.optimal != 0
     noeuds := out.nodes
     coupes := out.cuts
     temps := out.time
     timeout := out.timeout != 0
     historique_kpi := historique out.events }, graph_data)

/-- CSR rows recovered exactly the way the C engines read them:
`adj[start[v]], …, adj[start[v] + deg[v] − 1]`. -/
def rowsOfCSR (n : Nat) (adj start deg : List Int) : List (List Nat) :=
  (List.range n).map (fun v =>
    ((adj.drop (start.getD v 0).toNat).take (deg.getD v 0).toNat).map Int.toNat)

/-- Modelled from the spec: the C `sewell_solve` / `furini_solve` behind
the ctypes signature, running the spec-modelled B&B of §4.5/§4.6 with
fuel as the deadline oracle.  The modelled engine does not emit
intermediate progress events (no claim depends on their values); its
elapsed time is reported as 0 ticks. -/
def cSolve (variant : Variant) (fuel : Nat) : CEngine := fun n adj start deg _tm =>
  let nn := n.toNat
  let r := solveEngine variant nn (rowsOfCSR nn adj start deg) fuel
  { K := r.K, coloring := r.coloring.map (fun c : Nat => (c : Int)), LB := r.LB,
    UBinit := r.UBinit, optimal := if r.optimal then 1 else 0,
    nodes := r.nodes, cuts := r.cuts, time := 0,
    timeout := if r.timedOut then 1 else 0, events := [] }

/-- Python `solve_sewell(graph_data, temps_max, live_state)` with the
spec-modelled C engine (the extra fuel argument is the deadline oracle). -/
def solve_sewell (graph_data : GraphDesc) (temps_max : Int) (fuel : Nat) :
    PyResult × GraphDesc :=
  pySolve (cSolve .sewell fuel) "Sewell (1996)" graph_data temps_max

/-- Python `solve_furini(graph_data, temps_max, live_state)` with the
spec-modelled C engine. -/
def solve_furini (graph_data : GraphDesc) (temps_max : Int) (fuel : Nat) :
    PyResult × GraphDesc :=
  pySolve (cSolve .furini fuel) "Furini (2017)" graph_data temps_max

/- ──────────────────────────── Claim C8 ──────────────────────────── -/

/-- C8: the input descriptor is unchanged by a solve call, for *every*
possible behavior of the C engine: `_to_csr` passes copies, and nothing
in `_solve` writes to `graph_data`, so all six fields are intact on
return (both for `solve_sewell` and `solve_furini`, which share
`_solve`). -/
theorem c8_graph_unchanged (engine : CEngine) (algo_name : String)
    (graph_data : GraphDesc) (temps_max : Int) :
    (pySolve engine algo_name graph_data temps_max).2 = graph_data ∧
    (∀ tm fuel, (solve_sewell graph_data tm fuel).2 = graph_data) ∧
    (∀ tm fuel, (solve_furini graph_data tm fuel).2 = graph_data) :=
  ⟨rfl, fun _ _ => rfl, fun _ _ => rfl⟩

/- ──────────────────────────── Claim C5 ──────────────────────────── -/

/-- C5: in the sink-visible snapshot sequence of a solve call — the live
dict states, one per callback and one for the final `{"done": True}`
merge — `done` is `true` on the terminal state and on no other, and every
snapshot recorded in `historique` has `done = false`. -/
theorem c5_done_only_terminal (events : List CbEvent) :
    (∀ s ∈ historique events, s.done = false) ∧
    (liveStates events).map liveDone = events.map (fun _ => false) ++ [true] := by
  constructor
  · intro s hs
    rcases List.mem_map.mp hs with ⟨e, _, rfl⟩
    rfl
  · unfold liveStates
    rw [List.map_append, List.map_map]
    have h2 : List.map liveDone [liveSetDone (liveAfter events)] = [true] := by
      have hd : liveDone (liveSetDone (liveAfter events)) = true := by
        cases liveAfter events <;> rfl
      rw [List.map_singleton, hd]
    rw [h2]
    congr 1

/- ──────────────────────────── Claim C4 ──────────────────────────── -/

/-- C4: for every graph descriptor, time limit and C-engine behavior, the
result record carries exactly the §4.5 fields (the `PyResult` record),
with the algorithm identifier passed through, `coloring` of length
exactly `n`, and `history` the ordered sequence of snapshots as delivered
to the sink. -/
theorem c4_result_record_shape (engine : CEngine) (algo_name : String)
    (graph_data : GraphDesc) (temps_max : Int) :
    let r := (pySolve engine algo_name graph_data temps_max).1
    let out := engine graph_data.n graph_data.adj_flat graph_data.start
      graph_data.deg temps_max
    r.algo = algo_name ∧
    r.coloriage.length = graph_data.n.toNat ∧
    r.historique_kpi = historique out.events ∧
    r = PyResult.mk algo_name out.K (fitBuffer graph_data.n.toNat out.coloring)
      out.LB out.UBinit (out.optimal != 0) out.nodes out.cuts out.time
      (out.timeout != 0) (historique out.events) :=
  ⟨rfl, fitBuffer_length _ _, rfl, rfl⟩

/- ──────────── Claim C1 : properness of the returned coloring ──────────── -/

/-- Well-formed engine graph (the §6.1 integrity guarantees the engines
rely on): `n` rows, entries in `[0, n)`, symmetric, no self-loops. -/
def WFGraph (n : Nat) (nbrs : List (List Nat)) : Prop :=
  nbrs.length = n ∧
  (∀ u ∈ List.range n, ∀ v ∈ nbrs.getD u [], v < n) ∧
  (∀ u ∈ List.range n, ∀ v ∈ nbrs.getD u [], u ∈ nbrs.getD v []) ∧
  (∀ u ∈ List.range n, u ∉ nbrs.getD u [])

instance (n : Nat) (nbrs : List (List Nat)) : Decidable (WFGraph n nbrs) := by
  unfold WFGraph
  infer_instance

theorem wf_row_nil {n : Nat} {nbrs : List (List Nat)} (h : WFGraph n nbrs)
    (u : Nat) (hu : ¬ u < n) : nbrs.getD u [] = [] := by
  apply List.getD_eq_default
  rw [h.1]
  omega

theorem wf_inRange {n : Nat} {nbrs : List (List Nat)} (h : WFGraph n nbrs) :
    ∀ u : Nat, ∀ v ∈ nbrs.getD u [], v < n := by
  intro u v hv
  by_cases hu : u < n
  · exact h.2.1 u (List.mem_range.mpr hu) v hv
  · rw [wf_row_nil h u hu] at hv
    cases hv

theorem wf_symm {n : Nat} {nbrs : List (List Nat)} (h : WFGraph n nbrs) :
    ∀ u v : Nat, v ∈ nbrs.getD u [] → u ∈ nbrs.getD v [] := by
  intro u v hv
  by_cases hu : u < n
  · exact h.2.2.1 u (List.mem_range.mpr hu) v hv
  · rw [wf_row_nil h u hu] at hv
    cases hv

theorem wf_irrefl {n : Nat} {nbrs : List (List Nat)} (h : WFGraph n nbrs) :
    ∀ u : Nat, u ∉ nbrs.getD u [] := by
  intro u hu
  by_cases hun : u < n
  · exact h.2.2.2 u (List.mem_range.mpr hun) hu
  · rw [wf_row_nil h u hun] at hu
    cases hu

/-- A partial assignment with no same-colored adjacent pair. -/
def ProperPartial (nbrs : List (List Nat)) (col : List (Option Nat)) : Prop :=
  ∀ u v cu cv, v ∈ nbrs.getD u [] → col.getD u none = some cu →
    col.getD v none = some cv → cu ≠ cv

/-- A full coloring with no same-colored edge. -/
def ProperColoring (nbrs : List (List Nat)) (coloring : List Nat) : Prop :=
  ∀ u : Nat, ∀ v ∈ nbrs.getD u [], coloring.getD u 0 ≠ coloring.getD v 0

/-- The spec's invariant that the used colors form an initial segment,
phrased self-containedly: every assigned color is below the number of
distinct assigned colors. -/
def InitSeg (col : List (Option Nat)) : Prop :=
  ∀ c ∈ assignedColors col, c < usedCount col

theorem mem_neighborColors (nbrs : List (List Nat)) (col : List (Option Nat))
    (v c : Nat) :
    c ∈ neighborColors nbrs col v ↔ ∃ u ∈ nbrs.getD v [], col.getD u none = some c := by
  unfold neighborColors
  rw [List.mem_filterMap]

theorem getD_set_self (col : List (Option Nat)) (v : Nat) (a : Option Nat)
    (hv : v < col.length) : (col.set v a).getD v none = a := by
  rw [List.getD_eq_getElem?_getD, List.getElem?_set_self hv]
  rfl

theorem getD_set_other (col : List (Option Nat)) (v u : Nat) (a : Option Nat)
    (h : u ≠ v) : (col.set v a).getD u none = col.getD u none := by
  rw [List.getD_eq_getElem?_getD, List.getElem?_set_ne (Ne.symm h),
    ← List.getD_eq_getElem?_getD]

theorem mem_assignedColors (col : List (Option Nat)) (c : Nat) :
    c ∈ assignedColors col ↔ some c ∈ col := by
  unfold assignedColors
  rw [List.mem_filterMap]
  constructor
  · rintro ⟨o, ho, h⟩
    cases o with
    | none => cases h
    | some x => cases Option.some.inj h; exact ho
  · intro h
    exact ⟨some c, h, rfl⟩

theorem getD_some_mem (col : List (Option Nat)) (u c : Nat)
    (h : col.getD u none = some c) : some c ∈ col := by
  rw [List.getD_eq_getElem?_getD] at h
  cases hg : col[u]? with
  | none => rw [hg] at h; cases h
  | some o =>
    rw [hg] at h
    have : o = some c := h
    rw [this] at hg
    exact List.getElem?_mem hg

theorem neighborColors_subset_assigned (nbrs : List (List Nat))
    (col : List (Option Nat)) (v : Nat) :
    ∀ c ∈ neighborColors nbrs col v, c ∈ assignedColors col := by
  intro c hc
  rcases (mem_neighborColors nbrs col v c).mp hc with ⟨u, _, hu⟩
  exact (mem_assignedColors col c).mpr (getD_some_mem col u c hu)

theorem usedCount_eq_card (col : List (Option Nat)) :
    usedCount col = (assignedColors col).toFinset.card :=
  (List.card_toFinset _).symm

theorem initSeg_full (col : List (Option Nat)) (h : InitSeg col) :
    ∀ j : Nat, j < usedCount col → j ∈ assignedColors col := by
  intro j hj
  have hsub : (assignedColors col).toFinset ⊆ Finset.range (usedCount col) := by
    intro x hx
    rw [Finset.mem_range]
    exact h x (List.mem_toFinset.mp hx)
  have hcard : (Finset.range (usedCount col)).card ≤ (assignedColors col).toFinset.card := by
    rw [Finset.card_range, usedCount_eq_card]
  have heq := Finset.eq_of_subset_of_card_le hsub hcard
  have : j ∈ (assignedColors col).toFinset := by
    rw [heq, Finset.mem_range]
    exact hj
  exact List.mem_toFinset.mp this

theorem exists_notIn (s : List Nat) : ∃ c ∈ List.range (s.length + 1), c ∉ s := by
  by_contra hcon
  push_neg at hcon
  have hsub : (List.range (s.length + 1)).toFinset ⊆ s.toFinset := by
    intro x hx
    exact List.mem_toFinset.mpr (hcon x (List.mem_toFinset.mp hx))
  have h1 : (List.range (s.length + 1)).toFinset = Finset.range (s.length + 1) := by
    ext a
    simp [List.mem_toFinset, List.mem_range, Finset.mem_range]
  have h2 : s.length + 1 ≤ s.toFinset.card := by
    have := Finset.card_le_card hsub
    rw [h1, Finset.card_range] at this
    exact this
  have h3 : s.toFinset.card ≤ s.length := s.toFinset_card_le
  omega

theorem smallestNotIn_spec (s : List Nat) :
    smallestNotIn s ∉ s ∧ ∀ j : Nat, j < smallestNotIn s → j ∈ s := by
  obtain ⟨c0, hc0r, hc0⟩ := exists_notIn s
  have hmem : c0 ∈ (List.range (s.length + 1)).filter (fun c => c ∉ s) := by
    rw [List.mem_filter]
    exact ⟨hc0r, by simpa using hc0⟩
  cases hf : (List.range (s.length + 1)).filter (fun c => c ∉ s) with
  | nil => rw [hf] at hmem; cases hmem
  | cons a t =>
    have hhead : smallestNotIn s = a := by
      unfold smallestNotIn
      rw [hf]
      rfl
    have hamem : a ∈ (List.range (s.length + 1)).filter (fun c => c ∉ s) := by
      rw [hf]
      exact List.mem_cons_self a t
    have hnotin : a ∉ s := by
      have := List.of_mem_filter hamem
      simpa using this
    constructor
    · rw [hhead]
      exact hnotin
    · intro j hj
      rw [hhead] at hj
      by_contra hjs
      have hjr : j ∈ List.range (s.length + 1) := by
        rw [List.mem_range]
        have : a ∈ List.range (s.length + 1) := List.mem_of_mem_filter hamem
        rw [List.mem_range] at this
        omega
      have hjf : j ∈ (List.range (s.length + 1)).filter (fun c => c ∉ s) := by
        rw [List.mem_filter]
        exact ⟨hjr, by simpa using hjs⟩
      rw [hf] at hjf
      rcases List.mem_cons.mp hjf with rfl | hjt
      · omega
      · have hpw : ((List.range (s.length + 1)).filter (fun c => c ∉ s)).Pairwise (· < ·) :=
          List.Pairwise.filter _ (List.pairwise_lt_range _)
        rw [hf] at hpw
        have := (List.pairwise_cons.mp hpw).1 j hjt
        omega

theorem assigned_set_mem (col : List (Option Nat)) (v c : Nat)
    (hv : v < col.length) (hnone : col.getD v none = none) :
    ∀ x : Nat, x ∈ assignedColors (col.set v (some c)) ↔ x = c ∨ x ∈ assignedColors col := by
  intro x
  rw [mem_assignedColors, mem_assignedColors]
  constructor
  · intro hx
    rcases List.mem_iff_getElem?.mp hx with ⟨i, hi⟩
    by_cases hiv : i = v
    · subst hiv
      rw [List.getElem?_set_self hv] at hi
      exact Or.inl (Option.some.inj (Option.some.inj hi)).symm
    · rw [List.getElem?_set_ne (Ne.symm hiv)] at hi
      exact Or.inr (List.getElem?_mem hi)
  · intro hx
    rcases hx with rfl | hx
    · have : (col.set v (some x))[v]? = some (some x) := List.getElem?_set_self hv
      exact List.getElem?_mem this
    · rcases List.mem_iff_getElem?.mp hx with ⟨i, hi⟩
      have hiv : i ≠ v := by
        intro h
        subst h
        rw [List.getD_eq_getElem?_getD, hi] at hnone
        cases hnone
      have : (col.set v (some c))[i]? = some (some x) := by
        rw [List.getElem?_set_ne (Ne.symm hiv)]
        exact hi
      exact List.getElem?_mem this

theorem usedCount_set (col : List (Option Nat)) (v c : Nat)
    (hv : v < col.length) (hnone : col.getD v none = none) :
    usedCount (col.set v (some c)) =
      if c ∈ assignedColors col then usedCount col else usedCount col + 1 := by
  rw [usedCount_eq_card, usedCount_eq_card]
  have hins : (assignedColors (col.set v (some c))).toFinset =
      insert c (assignedColors col).toFinset := by
    ext x
    rw [List.mem_toFinset, assigned_set_mem col v c hv hnone x, Finset.mem_insert,
      List.mem_toFinset]
  rw [hins]
  by_cases hc : c ∈ assignedColors col
  · rw [if_pos hc, Finset.insert_eq_self.mpr (List.mem_toFinset.mpr hc)]
  · rw [if_neg hc, Finset.card_insert_of_not_mem (fun h => hc (List.mem_toFinset.mp h))]

theorem initSeg_set (col : List (Option Nat)) (v c : Nat)
    (hv : v < col.length) (hnone : col.getD v none = none)
    (hIS : InitSeg col) (hc : c ∈ assignedColors col ∨ c = usedCount col) :
    InitSeg (col.set v (some c)) := by
  intro x hx
  rw [assigned_set_mem col v c hv hnone x] at hx
  rw [usedCount_set col v c hv hnone]
  rcases hc with hca | hcu
  · rw [if_pos hca]
    rcases hx with rfl | hx
    · exact hIS x hca
    · exact hIS x hx
  · have hcna : c ∉ assignedColors col := by
      intro hmem
      have := hIS c hmem
      omega
    rw [if_neg hcna]
    rcases hx with rfl | hx
    · omega
    · have := hIS x hx
      omega

theorem candColors_cases (nbrs : List (List Nat)) (col : List (Option Nat))
    (ub v c : Nat) (h : c ∈ candColors nbrs col ub v) :
    (c < usedCount col ∧ c ∉ neighborColors nbrs col v) ∨
    (c = usedCount col ∧ usedCount col < ub) := by
  unfold candColors at h
  rcases List.mem_append.mp h with h1 | h1
  · rw [List.mem_filter] at h1
    rcases h1 with ⟨hr, hp⟩
    rw [List.mem_range] at hr
    refine Or.inl ⟨by omega, by simpa using hp⟩
  · by_cases hu : usedCount col < ub
    · rw [if_pos hu] at h1
      rcases List.mem_cons.mp h1 with rfl | h2
      · exact Or.inr ⟨rfl, hu⟩
      · cases h2
    · rw [if_neg hu] at h1
      cases h1

theorem candColors_legal (nbrs : List (List Nat)) (col : List (Option Nat))
    (ub v c : Nat) (hIS : InitSeg col) (h : c ∈ candColors nbrs col ub v) :
    c ∉ neighborColors nbrs col v := by
  rcases candColors_cases nbrs col ub v c h with ⟨_, hleg⟩ | ⟨rfl, _⟩
  · exact hleg
  · intro hmem
    have := hIS _ (neighborColors_subset_assigned nbrs col v _ hmem)
    omega

theorem candColors_seg (nbrs : List (List Nat)) (col : List (Option Nat))
    (ub v c : Nat) (hIS : InitSeg col) (h : c ∈ candColors nbrs col ub v) :
    c ∈ assignedColors col ∨ c = usedCount col := by
  rcases candColors_cases nbrs col ub v c h with ⟨hlt, _⟩ | ⟨rfl, _⟩
  · exact Or.inl (initSeg_full col hIS c hlt)
  · exact Or.inr rfl

theorem properPartial_set {n : Nat} {nbrs : List (List Nat)} (hwf : WFGraph n nbrs)
    (col : List (Option Nat)) (v c : Nat) (hv : v < col.length)
    (hP : ProperPartial nbrs col) (hlegal : c ∉ neighborColors nbrs col v) :
    ProperPartial nbrs (col.set v (some c)) := by
  intro u w cu cw hw hcu hcw
  by_cases huv : u = v
  · subst huv
    by_cases hwv : w = u
    · subst hwv
      exact absurd hw (wf_irrefl hwf w)
    · rw [getD_set_self col u _ hv] at hcu
      rw [getD_set_other col u w _ hwv] at hcw
      have hcwN : cw ∈ neighborColors nbrs col u :=
        (mem_neighborColors nbrs col u cw).mpr ⟨w, hw, hcw⟩
      intro hEq
      apply hlegal
      cases Option.some.inj hcu
      rw [hEq]
      exact hcwN
  · by_cases hwv : w = v
    · subst hwv
      rw [getD_set_self col w _ hv] at hcw
      rw [getD_set_other col w u _ huv] at hcu
      have huw : u ∈ nbrs.getD w [] := wf_symm hwf u w hw
      have hcuN : cu ∈ neighborColors nbrs col w :=
        (mem_neighborColors nbrs col w cu).mpr ⟨u, huw, hcu⟩
      intro hEq
      apply hlegal
      cases Option.some.inj hcw
      rw [← hEq]
      exact hcuN
    · rw [getD_set_other col v u _ huv] at hcu
      rw [getD_set_other col v w _ hwv] at hcw
      exact hP u w cu cw hw hcu hcw

theorem getD_eq_some_of_all (col : List (Option Nat)) (u : Nat)
    (hu : u < col.length) (hfull : allColored col = true) :
    ∃ cu : Nat, col.getD u none = some cu := by
  have hmem : col[u] ∈ col := col.getElem_mem hu
  have := (List.all_eq_true.mp hfull) _ hmem
  cases hg : col[u] with
  | none => rw [hg] at this; cases this
  | some cu =>
    refine ⟨cu, ?_⟩
    rw [List.getD_eq_getElem _ _ hu, hg]

theorem getD_map_getD (col : List (Option Nat)) (u cu : Nat)
    (h : col.getD u none = some cu) :
    (col.map (fun o => o.getD 0)).getD u 0 = cu := by
  have hu : u < col.length := by
    by_contra hcon
    rw [List.getD_eq_default _ _ (by omega)] at h
    cases h
  have hmap : u < (col.map (fun o => o.getD 0)).length := by
    rw [List.length_map]
    exact hu
  rw [List.getD_eq_getElem _ _ hmap, List.getElem_map]
  rw [List.getD_eq_getElem _ _ hu] at h
  rw [h]
  rfl

theorem properColoring_of_full {n : Nat} {nbrs : List (List Nat)}
    (hwf : WFGraph n nbrs) (col : List (Option Nat)) (hlen : col.length = n)
    (hfull : allColored col = true) (hP : ProperPartial nbrs col) :
    ProperColoring nbrs (col.map (fun o => o.getD 0)) := by
  intro u v hv
  by_cases hu : u < n
  · have hvn : v < n := wf_inRange hwf u v hv
    obtain ⟨cu, hcu⟩ := getD_eq_some_of_all col u (by omega) hfull
    obtain ⟨cv, hcv⟩ := getD_eq_some_of_all col v (by omega) hfull
    rw [getD_map_getD col u cu hcu, getD_map_getD col v cv hcv]
    exact hP u v cu cv hv hcu hcv
  · rw [wf_row_nil hwf u hu] at hv
    cases hv

theorem le_foldr_max (l : List Nat) (x : Nat) (hx : x ∈ l) : x ≤ l.foldr max 0 := by
  induction l with
  | nil => cases hx
  | cons a t ih =>
    rcases List.mem_cons.mp hx with rfl | hxt
    · exact Nat.le_max_left _ _
    · exact le_trans (ih hxt) (Nat.le_max_right _ _)

theorem entries_lt_maxAssigned (col : List (Option Nat)) :
    ∀ x ∈ col.map (fun o => o.getD 0), x < maxAssigned col + 1 := by
  intro x hx
  have := le_foldr_max _ x hx
  unfold maxAssigned
  omega

theorem pickBy_mem (key : Nat → Nat × Nat × Nat) (cands : List Nat) (v : Nat)
    (h : pickBy key cands = some v) : v ∈ cands := by
  unfold pickBy at h
  suffices haux : ∀ (l : List Nat) (acc : Option Nat),
      l.foldl
        (fun best w =>
          match best with
          | none => some w
          | some u => if keyLt (key u) (key w) then some w else some u)
        acc = some v → acc = some v ∨ v ∈ l by
    rcases haux cands none h with h0 | h0
    · cases h0
    · exact h0
  intro l
  induction l with
  | nil => intro acc h0; exact Or.inl h0
  | cons w t ih =>
    intro acc h0
    rw [List.foldl_cons] at h0
    rcases ih _ h0 with h1 | h1
    · cases acc with
      | none =>
        have : w = v := Option.some.inj h1
        exact Or.inr (this ▸ List.mem_cons_self w t)
      | some u =>
        dsimp only at h1
        by_cases hk : keyLt (key u) (key w)
        · rw [if_pos hk] at h1
          have : w = v := Option.some.inj h1
          exact Or.inr (this ▸ List.mem_cons_self w t)
        · rw [if_neg hk] at h1
          exact Or.inl h1
    · exact Or.inr (List.mem_cons_of_mem w h1)

theorem pickBy_isSome (key : Nat → Nat × Nat × Nat) (cands : List Nat)
    (h : cands ≠ []) : pickBy key cands ≠ none := by
  unfold pickBy
  suffices haux : ∀ (l : List Nat) (acc : Option Nat), acc ≠ none ∨ l ≠ [] →
      l.foldl
        (fun best w =>
          match best with
          | none => some w
          | some u => if keyLt (key u) (key w) then some w else some u)
        acc ≠ none by
    exact haux cands none (Or.inr h)
  intro l
  induction l with
  | nil =>
    intro acc hacc
    rcases hacc with h1 | h1
    · exact h1
    · exact absurd rfl h1
  | cons w t ih =>
    intro acc _
    rw [List.foldl_cons]
    apply ih
    left
    cases acc with
    | none => exact Option.some_ne_none w
    | some u =>
      dsimp only
      by_cases hk : keyLt (key u) (key w)
      · rw [if_pos hk]; exact Option.some_ne_none w
      · rw [if_neg hk]; exact Option.some_ne_none u

theorem mem_uncoloredList (n : Nat) (col : List (Option Nat)) (v : Nat) :
    v ∈ uncoloredList n col ↔ v < n ∧ col.getD v none = none := by
  unfold uncoloredList
  rw [List.mem_filter, List.mem_range]
  constructor
  · rintro ⟨h1, h2⟩
    exact ⟨h1, Option.isNone_iff_eq_none.mp h2⟩
  · rintro ⟨h1, h2⟩
    refine ⟨h1, ?_⟩
    rw [h2]
    rfl

theorem pickVertex_spec (variant : Variant) (n : Nat) (nbrs : List (List Nat))
    (col : List (Option Nat)) (ub v : Nat)
    (h : pickVertex variant n nbrs col ub = some v) :
    v < n ∧ col.getD v none = none := by
  have hv : v ∈ uncoloredList n col := by
    cases variant with
    | sewell => exact pickBy_mem _ _ v h
    | furini => exact pickBy_mem _ _ v h
  exact (mem_uncoloredList n col v).mp hv

/-- The invariant carried by the DSATUR heuristic and, for the partial
assignment, by every B&B node. -/
def ColInv (n : Nat) (nbrs : List (List Nat)) (col : List (Option Nat)) : Prop :=
  col.length = n ∧ ProperPartial nbrs col ∧ InitSeg col

theorem dsaturStep_inv {n : Nat} {nbrs : List (List Nat)} (hwf : WFGraph n nbrs)
    (col : List (Option Nat)) (h : ColInv n nbrs col) :
    ColInv n nbrs (dsaturStep n nbrs col) := by
  unfold dsaturStep
  cases hp : pickDSATUR n nbrs col with
  | none => exact h
  | some v =>
    have hv : v < n ∧ col.getD v none = none :=
      pickVertex_spec .furini n nbrs col 0 v hp
    have hvlen : v < col.length := by rw [h.1]; exact hv.1
    have hspec := smallestNotIn_spec (neighborColors nbrs col v)
    refine ⟨?_, ?_, ?_⟩
    · rw [List.length_set]
      exact h.1
    · exact properPartial_set hwf col v _ hvlen h.2.1 hspec.1
    · refine initSeg_set col v _ hvlen hv.2 h.2.2 ?_
      by_cases hca : smallestNotIn (neighborColors nbrs col v) ∈ assignedColors col
      · exact Or.inl hca
      · refine Or.inr ?_
        have hle : smallestNotIn (neighborColors nbrs col v) ≤ usedCount col := by
          by_contra hgt
          have hmem := hspec.2 (usedCount col) (by omega)
          have := h.2.2 _ (neighborColors_subset_assigned nbrs col v _ hmem)
          omega
        have hnlt : ¬ smallestNotIn (neighborColors nbrs col v) < usedCount col :=
          fun hlt => hca (initSeg_full col h.2.2 _ hlt)
        omega

theorem getD_replicate_none (n u : Nat) :
    (List.replicate n (none : Option Nat)).getD u none = none := by
  by_cases hu : u < n
  · rw [List.getD_eq_getElem _ _ (by simpa using hu), List.getElem_replicate]
  · rw [List.getD_eq_default _ _ (by simpa using Nat.le_of_not_lt hu)]

theorem colInv_init (n : Nat) (nbrs : List (List Nat)) :
    ColInv n nbrs (List.replicate n none) := by
  refine ⟨List.length_replicate n none, ?_, ?_⟩
  · intro u v cu cv _ hcu _
    rw [getD_replicate_none] at hcu
    cases hcu
  · intro c hc
    rw [mem_assignedColors] at hc
    have := List.eq_of_mem_replicate hc
    cases this

theorem dsaturGo_inv {n : Nat} {nbrs : List (List Nat)} (hwf : WFGraph n nbrs) :
    ∀ (k : Nat) (col : List (Option Nat)), ColInv n nbrs col →
      ColInv n nbrs (dsaturGo n nbrs k col) := by
  intro k
  induction k with
  | zero => intro col h; exact h
  | succ k ih =>
    intro col h
    exact ih _ (dsaturStep_inv hwf col h)

theorem filter_length_flip (p q : Nat → Bool) (v : Nat) :
    ∀ l : List Nat, l.Nodup → v ∈ l → p v = true → q v = false →
    (∀ u ∈ l, u ≠ v → q u = p u) →
    (l.filter q).length + 1 = (l.filter p).length := by
  intro l
  induction l with
  | nil => intro _ hv; cases hv
  | cons a t ih =>
    intro hnd hv hpv hqv hagree
    rcases List.mem_cons.mp hv with heqva | hvt
    · subst heqva
      have hq : t.filter q = t.filter p := by
        apply List.filter_congr
        intro u hu
        have hne : u ≠ v := by
          intro heq
          subst heq
          exact (List.nodup_cons.mp hnd).1 hu
        exact hagree u (List.mem_cons_of_mem v hu) hne
      rw [List.filter_cons, List.filter_cons, hpv, hqv]
      simp only [if_true, if_false, Bool.false_eq_true]
      rw [hq]
      simp
    · have hna : a ∉ t := (List.nodup_cons.mp hnd).1
      have hav : a ≠ v := fun heq => hna (heq ▸ hvt)
      have hrest := ih (List.nodup_cons.mp hnd).2 hvt hpv hqv
        (fun u hu hne => hagree u (List.mem_cons_of_mem a hu) hne)
      rw [List.filter_cons, List.filter_cons, hagree a (List.mem_cons_self a t) hav]
      by_cases hpa : p a = true
      · rw [hpa]
        simp only [if_true]
        rw [List.length_cons, List.length_cons]
        omega
      · rw [Bool.eq_false_iff.mpr hpa]
        simp only [Bool.false_eq_true, if_false]
        exact hrest

theorem uncolored_set_length (n : Nat) (col : List (Option Nat)) (v c : Nat)
    (hvn : v < n) (hv : v < col.length) (hnone : col.getD v none = none) :
    (uncoloredList n (col.set v (some c))).length + 1 = (uncoloredList n col).length := by
  unfold uncoloredList
  apply filter_length_flip _ _ v (List.range n) (List.nodup_range n)
    (List.mem_range.mpr hvn)
  · rw [hnone]
    rfl
  · rw [getD_set_self col v _ hv]
    rfl
  · intro u _ hne
    rw [getD_set_other col v u _ hne]

theorem uncolored_nil_full (n : Nat) (col : List (Option Nat)) (hlen : col.length = n)
    (h : uncoloredList n col = []) : allColored col = true := by
  unfold allColored
  rw [List.all_eq_true]
  intro o ho
  rcases List.mem_iff_getElem?.mp ho with ⟨i, hi⟩
  cases o with
  | some x => rfl
  | none =>
    exfalso
    have hin : i < n := by
      have : i < col.length := by
        by_contra hcon
        rw [List.getElem?_eq_none (by omega)] at hi
        cases hi
      omega
    have hgetD : col.getD i none = none := by
      rw [List.getD_eq_getElem?_getD, hi]
      rfl
    have : i ∈ uncoloredList n col := (mem_uncoloredList n col i).mpr ⟨hin, hgetD⟩
    rw [h] at this
    cases this

theorem dsaturGo_full {n : Nat} {nbrs : List (List Nat)} :
    ∀ (k : Nat) (col : List (Option Nat)), col.length = n →
      (uncoloredList n col).length ≤ k →
      allColored (dsaturGo n nbrs k col) = true := by
  intro k
  induction k with
  | zero =>
    intro col hlen hcount
    exact uncolored_nil_full n col hlen (List.length_eq_zero.mp (by omega))
  | succ k ih =>
    intro col hlen hcount
    have hgo : dsaturGo n nbrs (k + 1) col = dsaturGo n nbrs k (dsaturStep n nbrs col) :=
      rfl
    rw [hgo]
    cases hp : pickDSATUR n nbrs col with
    | none =>
      have hempty : uncoloredList n col = [] := by
        by_contra hne
        exact (pickBy_isSome _ _ hne) hp
      have hstep : dsaturStep n nbrs col = col := by
        unfold dsaturStep
        rw [hp]
      rw [hstep]
      refine ih col hlen ?_
      rw [hempty]
      simp
    | some v =>
      have hv : v < n ∧ col.getD v none = none :=
        pickVertex_spec .furini n nbrs col 0 v hp
      have hvlen : v < col.length := by rw [hlen]; exact hv.1
      have hstep : dsaturStep n nbrs col =
          col.set v (some (smallestNotIn (neighborColors nbrs col v))) := by
        unfold dsaturStep
        rw [hp]
      rw [hstep]
      have hdec := uncolored_set_length n col v (smallestNotIn (neighborColors nbrs col v)) hv.1 hvlen hv.2
      refine ih _ (by rw [List.length_set]; exact hlen) ?_
      omega

/-- Modelled-engine DSATUR returns a proper coloring of length `n` with
colors in `{0 .. k−1}`. -/
theorem dsatur_spec {n : Nat} {nbrs : List (List Nat)} (hwf : WFGraph n nbrs) :
    (dsatur n nbrs).2.length = n ∧ ProperColoring nbrs (dsatur n nbrs).2 ∧
    ∀ x ∈ (dsatur n nbrs).2, x < (dsatur n nbrs).1 := by
  have hinv : ColInv n nbrs (dsaturGo n nbrs n (List.replicate n none)) :=
    dsaturGo_inv hwf n _ (colInv_init n nbrs)
  have hfull : allColored (dsaturGo n nbrs n (List.replicate n none)) = true := by
    refine dsaturGo_full n _ (List.length_replicate n none) ?_
    calc (uncoloredList n (List.replicate n none)).length
        ≤ (List.range n).length := List.length_filter_le _ _
      _ = n := List.length_range n
  refine ⟨?_, ?_, ?_⟩
  · show ((dsaturGo n nbrs n (List.replicate n none)).map (fun o => o.getD 0)).length = n
    rw [List.length_map]
    exact hinv.1
  · exact properColoring_of_full hwf _ hinv.1 hfull hinv.2.1
  · intro x hx
    have hle := le_foldr_max _ x hx
    have heq : (dsatur n nbrs).1 = (dsatur n nbrs).2.foldr max 0 + 1 := rfl
    omega

/-- The full B&B invariant: well-formed partial assignment plus a proper
incumbent whose colors lie below the current upper bound. -/
def BBInv (n : Nat) (nbrs : List (List Nat)) (st : SearchState) : Prop :=
  ColInv n nbrs st.col ∧ st.best.length = n ∧ ProperColoring nbrs st.best ∧
  ∀ x ∈ st.best, x < st.ub

/-- One-step unfolding of `bb` at positive fuel. -/
theorem bb_succ (variant : Variant) (n : Nat) (nbrs : List (List Nat))
    (lb fuel : Nat) (st : SearchState) :
    bb variant n nbrs lb (fuel + 1) st =
      (if st.timedOut then st
       else if st.ub ≤ lb then st
       else
         let st1 : SearchState := { st with nodes := st.nodes + 1 }
         if allColored st1.col then
           let k := maxAssigned st1.col + 1
           if k < st1.ub then
             { st1 with ub := k, best := st1.col.map (fun o => o.getD 0) }
           else st1
         else if variant = .furini ∧ st1.ub ≤ furiniNodeLB n nbrs st1.col st1.ub then
           { st1 with cuts := st1.cuts + 1 }
         else
           match pickVertex variant n nbrs st1.col st1.ub with
           | none => st1
           | some v =>
             (candColors nbrs st1.col st1.ub v).foldl
               (fun s c =>
                 if s.timedOut then s
                 else
                   let s2 := bb variant n nbrs lb fuel
                     { s with col := s.col.set v (some c) }
                   { s2 with col := s.col })
               st1) := rfl

/-- The B&B recursion preserves the invariant at every fuel level. -/
theorem bb_inv {n : Nat} {nbrs : List (List Nat)} (hwf : WFGraph n nbrs)
    (variant : Variant) (lb : Nat) :
    ∀ (fuel : Nat) (st : SearchState), BBInv n nbrs st →
      BBInv n nbrs (bb variant n nbrs lb fuel st) := by
  intro fuel
  induction fuel with
  | zero => intro st h; exact h
  | succ fuel ih =>
    intro st h
    rw [bb_succ]
    by_cases h1 : st.timedOut = true
    · rw [if_pos h1]; exact h
    · rw [if_neg h1]
      by_cases h2 : st.ub ≤ lb
      · rw [if_pos h2]; exact h
      · rw [if_neg h2]
        dsimp only
        by_cases h3 : allColored st.col = true
        · rw [if_pos h3]
          by_cases h4 : maxAssigned st.col + 1 < st.ub
          · rw [if_pos h4]
            refine ⟨h.1, ?_, ?_, ?_⟩
            · rw [List.length_map]
              exact h.1.1
            · exact properColoring_of_full hwf st.col h.1.1 h3 h.1.2.1
            · exact entries_lt_maxAssigned st.col
          · rw [if_neg h4]
            exact h
        · rw [if_neg h3]
          by_cases h5 : variant = Variant.furini ∧
              st.ub ≤ furiniNodeLB n nbrs st.col st.ub
          · rw [if_pos h5]
            exact h
          · rw [if_neg h5]
            cases hpick : pickVertex variant n nbrs st.col st.ub with
            | none => exact h
            | some v =>
              obtain ⟨hvn, hvnone⟩ := pickVertex_spec variant n nbrs st.col st.ub v hpick
              have hfold : ∀ cands : List Nat,
                  (∀ c ∈ cands, c ∉ neighborColors nbrs st.col v ∧
                    (c ∈ assignedColors st.col ∨ c = usedCount st.col)) →
                  ∀ s : SearchState, BBInv n nbrs s → s.col = st.col →
                  BBInv n nbrs (cands.foldl
                    (fun s c =>
                      if s.timedOut then s
                      else
                        let s2 := bb variant n nbrs lb fuel
                          { s with col := s.col.set v (some c) }
                        { s2 with col := s.col })
                    s) ∧
                  (cands.foldl
                    (fun s c =>
                      if s.timedOut then s
                      else
                        let s2 := bb variant n nbrs lb fuel
                          { s with col := s.col.set v (some c) }
                        { s2 with col := s.col })
                    s).col = st.col := by
                intro cands
                induction cands with
                | nil =>
                  intro _ s hs hcol
                  exact ⟨hs, hcol⟩
                | cons c cs ihc =>
                  intro hcands s hs hcol
                  rw [List.foldl_cons]
                  have hnext := hcands c (List.mem_cons_self c cs)
                  by_cases hto : s.timedOut = true
                  · rw [if_pos hto]
                    exact ihc (fun x hx => hcands x (List.mem_cons_of_mem c hx)) s hs hcol
                  · rw [if_neg hto]
                    dsimp only
                    have hvslen : v < s.col.length := by
                      rw [hcol, h.1.1]
                      exact hvn
                    have hassign : BBInv n nbrs { s with col := s.col.set v (some c) } := by
                      refine ⟨⟨?_, ?_, ?_⟩, hs.2.1, hs.2.2.1, hs.2.2.2⟩
                      · rw [List.length_set, hcol]
                        exact h.1.1
                      · rw [hcol]
                        refine properPartial_set hwf st.col v c ?_ ?_ ?_
                        · rw [h.1.1]; exact hvn
                        · rw [← hcol]; exact hcol ▸ hs.1.2.1
                        · exact hnext.1
                      · rw [hcol]
                        refine initSeg_set st.col v c ?_ hvnone (hcol ▸ hs.1.2.2) hnext.2
                        rw [h.1.1]; exact hvn
                    have hs2 := ih _ hassign
                    have hafter : BBInv n nbrs
                        { bb variant n nbrs lb fuel { s with col := s.col.set v (some c) }
                            with col := s.col } := by
                      refine ⟨⟨?_, ?_, ?_⟩, hs2.2.1, hs2.2.2.1, hs2.2.2.2⟩
                      · exact hs.1.1
                      · exact hs.1.2.1
                      · exact hs.1.2.2
                    exact ihc (fun x hx => hcands x (List.mem_cons_of_mem c hx)) _ hafter hcol
              refine (hfold (candColors nbrs st.col st.ub v) ?_
                { st with nodes := st.nodes + 1 } h rfl).1
              intro c hc
              exact ⟨candColors_legal nbrs st.col st.ub v c h.1.2.2 hc,
                candColors_seg nbrs st.col st.ub v c h.1.2.2 hc⟩

/-- The spec-modelled engine always returns a coloring of length `n` that
is proper and uses colors `0 .. K−1`. -/
theorem solveEngine_spec {n : Nat} {nbrs : List (List Nat)} (hwf : WFGraph n nbrs)
    (variant : Variant) (fuel : Nat) :
    (solveEngine variant n nbrs fuel).coloring.length = n ∧
    ProperColoring nbrs (solveEngine variant n nbrs fuel).coloring ∧
    ∀ x ∈ (solveEngine variant n nbrs fuel).coloring,
      x < (solveEngine variant n nbrs fuel).K := by
  have hd := @dsatur_spec n nbrs hwf
  unfold solveEngine
  dsimp only
  by_cases hlb : greedyCliqueLB n nbrs = (dsatur n nbrs).1
  · rw [if_pos hlb]
    exact hd
  · rw [if_neg hlb]
    have hinit : BBInv n nbrs
        { col := List.replicate n none, ub := (dsatur n nbrs).1,
          best := (dsatur n nbrs).2, nodes := 0, cuts := 0, timedOut := false } :=
      ⟨colInv_init n nbrs, hd.1, hd.2.1, hd.2.2⟩
    have hst := bb_inv hwf variant (greedyCliqueLB n nbrs) fuel _ hinit
    exact ⟨hst.2.1, hst.2.2.1, hst.2.2.2⟩

theorem getD_map_intCast (l : List Nat) (u : Nat) :
    (l.map (fun c : Nat => (c : Int))).getD u 0 = ((l.getD u 0 : Nat) : Int) := by
  by_cases hu : u < l.length
  · have hmap : u < (l.map (fun c : Nat => (c : Int))).length := by
      rw [List.length_map]; exact hu
    rw [List.getD_eq_getElem _ _ hmap, List.getD_eq_getElem _ _ hu, List.getElem_map]
  · rw [List.getD_eq_default _ _ (by rw [List.length_map]; omega),
      List.getD_eq_default _ _ (by omega)]
    rfl

/-- C1: for every descriptor satisfying the §6.1 integrity guarantees on
the CSR rows the engines read, and every deadline behavior (fuel) — in
particular calls ending in timeout — whenever `solve_sewell` or
`solve_furini` returns `K > 0`, the returned coloring array is a proper
coloring of the input graph with every entry in `{0 .. K−1}`.  (The two
engines are spec-modelled: their C sources are not part of the tree.) -/
theorem c1_solver_returns_proper_coloring (g : GraphDesc) (tm : Int) (fuel : Nat)
    (hwf : WFGraph g.n.toNat (rowsOfCSR g.n.toNat g.adj_flat g.start g.deg)) :
    (0 < ((solve_sewell g tm fuel).1).K →
      (∀ u : Nat, ∀ w ∈ (rowsOfCSR g.n.toNat g.adj_flat g.start g.deg).getD u [],
        ((solve_sewell g tm fuel).1).coloriage.getD u 0 ≠
          ((solve_sewell g tm fuel).1).coloriage.getD w 0) ∧
      (∀ x ∈ ((solve_sewell g tm fuel).1).coloriage,
        0 ≤ x ∧ x < ((solve_sewell g tm fuel).1).K)) ∧
    (0 < ((solve_furini g tm fuel).1).K →
      (∀ u : Nat, ∀ w ∈ (rowsOfCSR g.n.toNat g.adj_flat g.start g.deg).getD u [],
        ((solve_furini g tm fuel).1).coloriage.getD u 0 ≠
          ((solve_furini g tm fuel).1).coloriage.getD w 0) ∧
      (∀ x ∈ ((solve_furini g tm fuel).1).coloriage,
        0 ≤ x ∧ x < ((solve_furini g tm fuel).1).K)) := by
  have main : ∀ (variant : Variant) (name : String),
      (∀ u : Nat, ∀ w ∈ (rowsOfCSR g.n.toNat g.adj_flat g.start g.deg).getD u [],
        (pySolve (cSolve variant fuel) name g tm).1.coloriage.getD u 0 ≠
          (pySolve (cSolve variant fuel) name g tm).1.coloriage.getD w 0) ∧
      (∀ x ∈ (pySolve (cSolve variant fuel) name g tm).1.coloriage,
        0 ≤ x ∧ x < (pySolve (cSolve variant fuel) name g tm).1.K) := by
    intro variant name
    have hsol := solveEngine_spec hwf variant fuel
    have hcolor : (pySolve (cSolve variant fuel) name g tm).1.coloriage =
        ((solveEngine variant g.n.toNat
          (rowsOfCSR g.n.toNat g.adj_flat g.start g.deg) fuel).coloring).map
          (fun c : Nat => (c : Int)) := by
      show fitBuffer g.n.toNat (((solveEngine variant g.n.toNat
        (rowsOfCSR g.n.toNat g.adj_flat g.start g.deg) fuel).coloring).map
          (fun c : Nat => (c : Int))) = _
      apply fitBuffer_of_length_eq
      rw [List.length_map]
      exact hsol.1
    have hK : (pySolve (cSolve variant fuel) name g tm).1.K =
        ((solveEngine variant g.n.toNat
          (rowsOfCSR g.n.toNat g.adj_flat g.start g.deg) fuel).K : Int) := rfl
    constructor
    · intro u w hw
      rw [hcolor, getD_map_intCast, getD_map_intCast]
      have hne := hsol.2.1 u w hw
      intro hcast
      apply hne
      exact_mod_cast hcast
    · intro x hx
      rw [hcolor] at hx
      rcases List.mem_map.mp hx with ⟨y, hy, rfl⟩
      have := hsol.2.2 y hy
      rw [hK]
      constructor
      · exact Int.ofNat_nonneg y
      · exact_mod_cast this
  exact ⟨fun _ => main .sewell "Sewell (1996)", fun _ => main .furini "Furini (2017)"⟩

/-- Witness for C1 on the triangle `K₃`: the integrity hypothesis holds,
`solve_sewell` returns `K = 3 > 0` there, and the theorem's conclusion is
obtained by applying it. -/
theorem c1_witness :
    WFGraph (3 : Int).toNat
      (rowsOfCSR (3 : Int).toNat [1, 2, 0, 2, 0, 1] [0, 2, 4] [2, 2, 2]) ∧
    ((solve_sewell
      { n := 3, m := 3, voisins := [[1, 2], [0, 2], [0, 1]],
        adj_flat := [1, 2, 0, 2, 0, 1], start := [0, 2, 4], deg := [2, 2, 2] }
      10 20).1).K = 3 ∧
    (0 < ((solve_sewell
      { n := 3, m := 3, voisins := [[1, 2], [0, 2], [0, 1]],
        adj_flat := [1, 2, 0, 2, 0, 1], start := [0, 2, 4], deg := [2, 2, 2] }
      10 20).1).K →
      (∀ u : Nat, ∀ w ∈ (rowsOfCSR (3 : Int).toNat [1, 2, 0, 2, 0, 1] [0, 2, 4]
          [2, 2, 2]).getD u [],
        ((solve_sewell
          { n := 3, m := 3, voisins := [[1, 2], [0, 2], [0, 1]],
            adj_flat := [1, 2, 0, 2, 0, 1], start := [0, 2, 4], deg := [2, 2, 2] }
          10 20).1).coloriage.getD u 0 ≠
          ((solve_sewell
            { n := 3, m := 3, voisins := [[1, 2], [0, 2], [0, 1]],
              adj_flat := [1, 2, 0, 2, 0, 1], start := [0, 2, 4], deg := [2, 2, 2] }
            10 20).1).coloriage.getD w 0) ∧
      (∀ x ∈ ((solve_sewell
          { n := 3, m := 3, voisins := [[1, 2], [0, 2], [0, 1]],
            adj_flat := [1, 2, 0, 2, 0, 1], start := [0, 2, 4], deg := [2, 2, 2] }
          10 20).1).coloriage,
        0 ≤ x ∧ x < ((solve_sewell
          { n := 3, m := 3, voisins := [[1, 2], [0, 2], [0, 1]],
            adj_flat := [1, 2, 0, 2, 0, 1], start := [0, 2, 4], deg := [2, 2, 2] }
          10 20).1).K)) :=
  ⟨by decide, by rfl,
    (c1_solver_returns_proper_coloring
      { n := 3, m := 3, voisins := [[1, 2], [0, 2], [0, 1]],
        adj_flat := [1, 2, 0, 2, 0, 1], start := [0, 2, 4], deg := [2, 2, 2] }
      10 20 (by decide)).1⟩
